import Mathlib

/-!
# blaze: request routing and middleware composition

A shallow embedding of `router.go`, `middlewares.go` and `server.go`.

Go strings that the `regexp` package reads (patterns, URL paths, parameter
names and values) are `List Char`; method names, header names, bodies and
log lines are `String`.  A Go panic is `none` in `Option`.

The first part models the fragment of Go's `regexp` package (RE2 syntax,
leftmost-first matching) that the router relies on.
-/

namespace Blaze

/-! ## Go `regexp`: syntax -/

/-- One member of a bracket expression such as `[\w-_]`. -/
inductive ClassItem where
  | single (c : Char)
  | range (lo hi : Char)
  | word
  | digit
  | space
  deriving DecidableEq, Repr

/-- A regular expression that consumes exactly one character. -/
inductive Atom where
  | lit (c : Char)
  | any
  | cls (items : List ClassItem)
  | ncls (items : List ClassItem)
  deriving DecidableEq, Repr

/-- Abstract syntax of the modelled fragment: single-character atoms, greedy
repetition of an atom, the text anchors, concatenation and capture groups. -/
inductive Re where
  | empty
  | atom (a : Atom)
  | star (a : Atom)
  | plus (a : Atom)
  | quest (a : Atom)
  | bol
  | eol
  | cat (r s : Re)
  | group (idx : Nat) (r : Re)
  deriving DecidableEq, Repr

/-- Go's `\w`: `[0-9A-Za-z_]`. -/
def isWordChar (c : Char) : Bool := c.isAlphanum || c == '_'

/-- Go's `\s`: `[\t\n\f\r ]`. -/
def isSpaceChar (c : Char) : Bool :=
  c == ' ' || c == '\t' || c == '\n' || c == '\r' || c == Char.ofNat 12

def ClassItem.test : ClassItem → Char → Bool
  | .single x, c => c == x
  | .range lo hi, c => decide (lo.toNat ≤ c.toNat) && decide (c.toNat ≤ hi.toNat)
  | .word, c => isWordChar c
  | .digit, c => c.isDigit
  | .space, c => isSpaceChar c

def Atom.test : Atom → Char → Bool
  | .lit x, c => c == x
  | .any, c => c != '\n'
  | .cls items, c => items.any (fun i => i.test c)
  | .ncls items, c => !(items.any (fun i => i.test c))

/-- Concatenation of a sequence of expressions. -/
def catList : List Re → Re
  | [] => .empty
  | r :: rs => .cat r (catList rs)

/-! ## Go `regexp`: parsing (`regexp/syntax`, Perl flags) -/

/-- Pending state of Go's `parseClass` range recognition: the last character
read as a possible lower bound, and whether a `-` followed it. -/
inductive Pend where
  | none
  | lo (c : Char)
  | loDash (c : Char)
  deriving DecidableEq, Repr

/-- Where the parser is inside the pattern text. -/
inductive Mode where
  | normal
  | afterOpen
  | esc
  | clsStart
  | cls (items : List ClassItem) (pend : Pend)
  | clsEsc (items : List ClassItem) (pend : Pend)
  deriving DecidableEq, Repr

/-- Parser state: `cur` holds the items of the concatenation being read, most
recent first; `stack` holds, for every open parenthesis, its capture index and
the items read before it; `ncap` counts the capture groups opened so far. -/
structure PState where
  cur : List Re
  stack : List (Nat × List Re)
  ncap : Nat
  mode : Mode
  deriving DecidableEq, Repr

/-- ASCII punctuation: backslash followed by one of these is that character. -/
def isPunct (c : Char) : Bool := decide (c.toNat < 128) && !c.isAlphanum

/-- Apply a repetition operator to the most recent item, which must be a
single-character atom. -/
def applyRep (mk : Atom → Re) (st : PState) : Option PState :=
  match st.cur with
  | .atom a :: rest => some { st with cur := mk a :: rest, mode := .normal }
  | _ => none

/-- Close a pending range state of a bracket expression. -/
def flushPend (items : List ClassItem) : Pend → List ClassItem
  | .none => items
  | .lo x => .single x :: items
  | .loDash x => .single '-' :: .single x :: items

/-- A plain character `c` read inside a bracket expression. -/
def classChar (items : List ClassItem) (pend : Pend) (c : Char) : Option Mode :=
  match pend with
  | .none => some (.cls items (.lo c))
  | .lo x => if c = '-' then some (.cls items (.loDash x))
             else some (.cls (.single x :: items) (.lo c))
  | .loDash x => if x.toNat ≤ c.toNat then some (.cls (.range x c :: items) .none) else none

/-- An escaped character `c` read inside a bracket expression: it is taken as
itself, so an escaped `-` does not start a range. -/
def classEscaped (items : List ClassItem) (pend : Pend) (c : Char) : Option Mode :=
  match pend with
  | .lo x => some (.cls (.single x :: items) (.lo c))
  | _ => classChar items pend c

/-- A character read outside brackets and escapes. -/
def stepNormal (st : PState) (c : Char) : Option PState :=
  if c = '\\' then some { st with mode := .esc }
  else if c = '(' then
    some { cur := [], stack := (st.ncap + 1, st.cur) :: st.stack, ncap := st.ncap + 1,
           mode := .afterOpen }
  else if c = ')' then
    match st.stack with
    | [] => none
    | (idx, outer) :: stack =>
      some { st with cur := .group idx (catList st.cur.reverse) :: outer, stack := stack,
                     mode := .normal }
  else if c = '[' then some { st with mode := .clsStart }
  else if c = '*' then applyRep .star st
  else if c = '+' then applyRep .plus st
  else if c = '?' then applyRep .quest st
  else if c = '^' then some { st with cur := .bol :: st.cur, mode := .normal }
  else if c = '$' then some { st with cur := .eol :: st.cur, mode := .normal }
  else if c = '.' then some { st with cur := .atom .any :: st.cur, mode := .normal }
  else if c = '|' ∨ c = '{' ∨ c = '}' ∨ c = ']' then none
  else some { st with cur := .atom (.lit c) :: st.cur, mode := .normal }

/-- One character of the pattern. -/
def step (st : PState) (c : Char) : Option PState :=
  match st.mode with
  | .normal => stepNormal st c
  | .afterOpen => if c = '?' then none else stepNormal st c
  | .esc =>
    if c = 'w' then some { st with cur := .atom (.cls [.word]) :: st.cur, mode := .normal }
    else if c = 'd' then some { st with cur := .atom (.cls [.digit]) :: st.cur, mode := .normal }
    else if c = 's' then some { st with cur := .atom (.cls [.space]) :: st.cur, mode := .normal }
    else if c = 'W' then some { st with cur := .atom (.ncls [.word]) :: st.cur, mode := .normal }
    else if c = 'D' then some { st with cur := .atom (.ncls [.digit]) :: st.cur, mode := .normal }
    else if c = 'S' then some { st with cur := .atom (.ncls [.space]) :: st.cur, mode := .normal }
    else if isPunct c then some { st with cur := .atom (.lit c) :: st.cur, mode := .normal }
    else none
  | .clsStart =>
    if c = '^' ∨ c = ']' ∨ c = '[' then none
    else if c = '\\' then some { st with mode := .clsEsc [] .none }
    else (classChar [] .none c).map (fun m => { st with mode := m })
  | .cls items pend =>
    if c = ']' then
      some { st with cur := .atom (.cls (flushPend items pend).reverse) :: st.cur,
                     mode := .normal }
    else if c = '[' then none
    else if c = '\\' then some { st with mode := .clsEsc items pend }
    else (classChar items pend c).map (fun m => { st with mode := m })
  | .clsEsc items pend =>
    if c = 'w' ∨ c = 'd' ∨ c = 's' then
      match pend with
      | .loDash _ => none
      | _ =>
        let item := if c = 'w' then ClassItem.word else if c = 'd' then .digit else .space
        some { st with mode := .cls (item :: flushPend items pend) .none }
    else if isPunct c then (classEscaped items pend c).map (fun m => { st with mode := m })
    else none

/-- Run the parser over the pattern text. -/
def parseFrom : PState → List Char → Option PState
  | st, [] => some st
  | st, c :: cs => (step st c).bind (fun st1 => parseFrom st1 cs)

/-- A compiled regular expression: its source text (`String()`), its syntax
tree and its number of capture groups (`NumSubexp()`). -/
structure Regexp where
  expr : List Char
  prog : Re
  numSubexp : Nat
  deriving DecidableEq, Repr

/-- Go's `regexp.MustCompile`.  `none` stands for the panic on a rejected
pattern; a pattern outside the modelled fragment (alternation, counted or lazy
repetition, repetition of a group, negated or POSIX brackets, flags) is also
`none`, and nothing below is derived from `none` for such a pattern. -/
def MustCompile (expr : List Char) : Option Regexp :=
  match parseFrom { cur := [], stack := [], ncap := 0, mode := .normal } expr with
  | some st =>
    match st.mode, st.stack with
    | .normal, [] => some { expr := expr, prog := catList st.cur.reverse, numSubexp := st.ncap }
    | _, _ => none
  | none => none

/-- Go's `(*Regexp).String`. -/
def Regexp.String (re : Regexp) : List Char := re.expr

/-! ## Go `regexp`: matching -/

/-- Submatch texts of the capture groups `1 .. n`, `none` while unset. -/
abbrev Caps := List (Option (List Char))

/-- Result of a successful run: end position, remaining text, captures. -/
abbrev RunResult := Nat × List Char × Caps

/-- Greedy `a*`: take the longest run first, give characters back one at a
time while the continuation fails. -/
def starLoop (a : Atom) (k : Nat → List Char → Option RunResult) :
    Nat → List Char → Option RunResult
  | pos, [] => k pos []
  | pos, c :: cs =>
    if a.test c then
      match starLoop a k (pos + 1) cs with
      | some r => some r
      | none => k pos (c :: cs)
    else k pos (c :: cs)

/-- Backtracking matcher in continuation-passing style: the first result in
priority order, which is the leftmost-first match Go reports. -/
def Re.run : Re → Nat → List Char → Caps →
    (Nat → List Char → Caps → Option RunResult) → Option RunResult
  | .empty, pos, rest, caps, k => k pos rest caps
  | .atom a, pos, rest, caps, k =>
    match rest with
    | c :: cs => if a.test c then k (pos + 1) cs caps else none
    | [] => none
  | .star a, pos, rest, caps, k => starLoop a (fun p r => k p r caps) pos rest
  | .plus a, pos, rest, caps, k =>
    match rest with
    | c :: cs => if a.test c then starLoop a (fun p r => k p r caps) (pos + 1) cs else none
    | [] => none
  | .quest a, pos, rest, caps, k =>
    match rest with
    | c :: cs =>
      if a.test c then
        match k (pos + 1) cs caps with
        | some r => some r
        | none => k pos rest caps
      else k pos rest caps
    | [] => k pos rest caps
  | .bol, pos, rest, caps, k => if pos = 0 then k pos rest caps else none
  | .eol, pos, rest, caps, k =>
    match rest with
    | [] => k pos rest caps
    | _ :: _ => none
  | .cat r s, pos, rest, caps, k => r.run pos rest caps (fun p t c => s.run p t c k)
  | .group idx r, pos, rest, caps, k =>
    r.run pos rest caps
      (fun p t c => k p t (c.set (idx - 1) (some (rest.take (p - pos)))))

/-- One match: bounds, the text skipped before it from the search position,
the matched text, the text after it, and the submatches. -/
structure Match where
  start : Nat
  stop : Nat
  skipped : List Char
  text : List Char
  after : List Char
  caps : Caps
  deriving DecidableEq, Repr

/-- Try a match starting exactly at `pos`. -/
def Regexp.matchAt (re : Regexp) (pos : Nat) (rest : List Char) : Option RunResult :=
  re.prog.run pos rest (List.replicate re.numSubexp none) (fun p t c => some (p, t, c))

/-- Go's `doExecute` from a search position: the leftmost position at which a
match starts, and there the first match in priority order.  `skipped` collects,
most recent first, the characters passed over. -/
def Regexp.search (re : Regexp) : List Char → Nat → List Char → Option Match
  | skipped, pos, [] =>
    (re.matchAt pos []).map (fun r =>
      { start := pos, stop := r.1, skipped := skipped.reverse, text := [], after := r.2.1,
        caps := r.2.2 })
  | skipped, pos, c :: cs =>
    match re.matchAt pos (c :: cs) with
    | some r =>
      some { start := pos, stop := r.1, skipped := skipped.reverse,
             text := (c :: cs).take (r.1 - pos), after := r.2.1, caps := r.2.2 }
    | none => re.search (c :: skipped) (pos + 1) cs

/-- Go's `(*Regexp).MatchString`. -/
def Regexp.MatchString (re : Regexp) (s : List Char) : Bool :=
  (re.search [] 0 s).isSome

/-- Go's `allMatches` loop: successive non-overlapping matches; an empty match
directly after the previous match is dropped.  The fuel bounds the number of
iterations, each of which advances the search position. -/
def Regexp.allMatches (re : Regexp) : Nat → Nat → List Char → Option Nat → List Match
  | 0, _, _, _ => []
  | fuel + 1, pos, rest, prevMatchEnd =>
    match re.search [] pos rest with
    | none => []
    | some m =>
      if m.stop = pos then
        let found := if prevMatchEnd = some m.start then [] else [m]
        match rest with
        | [] => found
        | _ :: cs => found ++ re.allMatches fuel (pos + 1) cs (some m.stop)
      else m :: re.allMatches fuel m.stop m.after (some m.stop)

/-- Go's `(*Regexp).FindAllString(s, -1)`. -/
def Regexp.FindAllString (re : Regexp) (s : List Char) : List (List Char) :=
  (re.allMatches (s.length + 2) 0 s none).map (fun m => m.text)

/-- Go's `(*Regexp).FindAllStringSubmatch(s, -1)`: per match the matched text
followed by the text of every group, empty for a group that took no part. -/
def Regexp.FindAllStringSubmatch (re : Regexp) (s : List Char) : List (List (List Char)) :=
  (re.allMatches (s.length + 2) 0 s none).map
    (fun m => m.text :: m.caps.map (fun c => c.getD []))

/-- Go's `replaceAll` loop with a replacement text free of `$`: the text
between matches is kept, each match is replaced, except an empty match
directly after the previous match. -/
def Regexp.replaceAll (re : Regexp) (repl : List Char) :
    Nat → Nat → List Char → Nat → List Char
  | 0, _, rest, _ => rest
  | fuel + 1, searchPos, rest, lastMatchEnd =>
    match re.search [] searchPos rest with
    | none => rest
    | some m =>
      let out := if m.stop > lastMatchEnd ∨ m.start = 0 then m.skipped ++ repl else m.skipped
      if searchPos + 1 > m.stop then
        match rest with
        | [] => out
        | c :: cs => out ++ c :: re.replaceAll repl fuel (searchPos + 1) cs m.stop
      else out ++ re.replaceAll repl fuel m.stop m.after m.stop

/-- Go's `(*Regexp).ReplaceAllString(src, repl)` for `repl` without `$`. -/
def Regexp.ReplaceAllString (re : Regexp) (src repl : List Char) : List Char :=
  re.replaceAll repl (src.length + 2) 0 src 0

/-! ## Go maps and strings -/

/-- Write `m[k] = v` on a Go map kept as an association list with one entry
per key. -/
def mapSet {κ ν : Type} [DecidableEq κ] : List (κ × ν) → κ → ν → List (κ × ν)
  | [], k, v => [(k, v)]
  | (k1, v1) :: rest, k, v => if k1 = k then (k, v) :: rest else (k1, v1) :: mapSet rest k v

/-- Read `m[k]` with its presence flag. -/
def mapGet {κ ν : Type} [DecidableEq κ] : List (κ × ν) → κ → Option ν
  | [], _ => none
  | (k1, v1) :: rest, k => if k1 = k then some v1 else mapGet rest k

/-- Go's `strings.TrimFunc`: drop the leading and the trailing characters that
satisfy `f`. -/
def TrimFunc (s : List Char) (f : Char → Bool) : List Char :=
  ((s.dropWhile f).reverse.dropWhile f).reverse

/-- Go's `strings.TrimPrefix`. -/
def TrimPrefix : List Char → List Char → List Char
  | s, [] => s
  | [], _ :: _ => []
  | c :: cs, p :: ps => if c = p ∧ ps.isPrefixOf cs then cs.drop ps.length else c :: cs

/-! ## server.go: request and response -/

structure URL where
  Path : List Char
  deriving DecidableEq, Repr

structure ServerCtx (T : Type) where
  Data : T

/-- The response accumulator; `Logger` holds the lines printed so far through
the response's logger.  Header map and logger are allocated, as `NativeHandler`
builds them. -/
structure Response where
  Header : List (String × List String)
  StatusCode : Int
  Body : String
  Logger : List String
  deriving DecidableEq, Repr

/-- The request; `Body` is `none` for a nil reader and otherwise the text still
to be read.  The parameter map is allocated, as `nativeRequestAdaptor` builds
it. -/
structure Request (T : Type) where
  URL : URL
  Header : List (String × List String)
  Method : String
  Body : Option String
  Params : List (List Char × List Char)
  Context : ServerCtx T
  rootPattern : List Char

def StatusNotFound : Int := 404
def StatusMethodNotAllowed : Int := 405
def StatusInternalServerError : Int := 500
def StatusNotImplemented : Int := 501

/-- `res.Logger.Println(line)`. -/
def Response.Println (r : Response) (line : String) : Response :=
  { r with Logger := r.Logger ++ [line] }

def Response.Write (r : Response) (bytes : String) : Response :=
  { r with Body := r.Body ++ bytes }

def Response.SetStatus (r : Response) (statusCode : Int) : Response :=
  { r with StatusCode := statusCode }

/-- `r.Header.Set(key, value)` for a key in canonical form. -/
def Response.HeaderSet (r : Response) (key value : String) : Response :=
  { r with Header := mapSet r.Header key [value] }

def Response.WriteText (r : Response) (statusCode : Int) (text : String) : Response :=
  ((r.HeaderSet "Content-Type" "text/plain").SetStatus statusCode).Write text

def Request.GetParam {T : Type} (r : Request T) (key defaultVal : List Char) : List Char :=
  match mapGet r.Params key with
  | some value => value
  | none => defaultVal

/-! ## router.go -/

/-- A handler mutates the response it is given; `none` is a panic. -/
abbrev Handler (T : Type) := Request T → Response → Option Response

/-- One node of the router's linked list, without its `next` pointer. -/
structure HandlerNode (T : Type) where
  pattern : Regexp
  method : String
  handler : Option (Handler T)

/-- The router: its root node and the nodes reachable from `root.next`, in
list order. -/
structure Router (T : Type) where
  root : HandlerNode T
  next : List (HandlerNode T)

def NewRouter (T : Type) : Option (Router T) :=
  (MustCompile "^/$".toList).map (fun re =>
    { root := { pattern := re, method := "", handler := none }, next := [] })

def getStringFromRegex (regex : Regexp) : List Char :=
  TrimFunc regex.String (fun r => r == '^' || r == '$')

def extractParamKeys (regex : Regexp) (pattern : List Char) : List (List Char) :=
  (regex.FindAllString pattern).map (fun key => TrimPrefix key ":".toList)

/-- The inner loop of `populateParams` from index `i` on, `groups` being
`match[i:]`: `params[keys[i-1]] = match[i]`, a panic when `i-1` is out of
range. -/
def populateMatch (keys : List (List Char)) :
    Nat → List (List Char) → List (List Char × List Char) →
    Option (List (List Char × List Char))
  | _, [], params => some params
  | i, g :: gs, params =>
    match keys.get? (i - 1) with
    | some key => populateMatch keys (i + 1) gs (mapSet params key g)
    | none => none

/-- The outer loop of `populateParams` over the matches. -/
def populateAll (keys : List (List Char)) :
    List (List (List Char)) → List (List Char × List Char) →
    Option (List (List Char × List Char))
  | [], params => some params
  | m :: ms, params => (populateMatch keys 1 (m.drop 1) params).bind (populateAll keys ms)

def populateParams (params : List (List Char × List Char)) (keys : List (List Char))
    (url : List Char) (regex : Regexp) : Option (List (List Char × List Char)) :=
  populateAll keys (regex.FindAllStringSubmatch url) params

/-- The loop of `Router.Handle` over the nodes from `head` on. -/
def Router.scan {T : Type} (regexParam : Regexp) :
    List (HandlerNode T) → Request T → Response → Option Response
  | [], _, res =>
    some ((res.WriteText StatusNotFound "").Println
      "No routes found. Request reached end of the chain.")
  | head :: rest, req, res =>
    match MustCompile (regexParam.ReplaceAllString head.pattern.String "([\\w-_]+)".toList) with
    | none => none
    | some regex =>
      if regex.MatchString (req.rootPattern ++ req.URL.Path) then
        if head.method ≠ req.Method then
          some (res.WriteText StatusMethodNotAllowed "")
        else
          match populateParams req.Params (extractParamKeys regexParam head.pattern.String)
              req.URL.Path regex with
          | none => none
          | some params =>
            match head.handler with
            | none => none
            | some h =>
              h { req with rootPattern := getStringFromRegex head.pattern, Params := params } res
      else Router.scan regexParam rest req res

def Router.Handle {T : Type} (r : Router T) (req : Request T) (res : Response) :
    Option Response :=
  match MustCompile ":[\\w_]+".toList with
  | none => none
  | some regexParam =>
    if r.root.pattern.MatchString req.URL.Path then
      match r.root.handler with
      | none => some (res.WriteText StatusNotImplemented "")
      | some h => h req res
    else Router.scan regexParam (r.root :: r.next) req res

/-- The body shared by `Get`, `Post`, `Patch`, `Delete` and `Put`, which
differ in the method label only. -/
def Router.register {T : Type} (method : String) (r : Router T) (pattern : List Char)
    (handler : Handler T) : Option (Router T) :=
  if r.root.pattern.MatchString pattern ∧ r.root.handler.isNone then
    some { r with root := { r.root with handler := some handler } }
  else
    (MustCompile (pattern ++ "/?$".toList)).map (fun regex =>
      { r with next := r.next ++ [{ pattern := regex, method := method,
                                    handler := some handler }] })

def Router.Get {T : Type} (r : Router T) (pattern : List Char) (handler : Handler T) :
    Option (Router T) :=
  Router.register "GET" r pattern handler

def Router.Post {T : Type} (r : Router T) (pattern : List Char) (handler : Handler T) :
    Option (Router T) :=
  Router.register "POST" r pattern handler

def Router.Patch {T : Type} (r : Router T) (pattern : List Char) (handler : Handler T) :
    Option (Router T) :=
  Router.register "PATCH" r pattern handler

def Router.Delete {T : Type} (r : Router T) (pattern : List Char) (handler : Handler T) :
    Option (Router T) :=
  Router.register "DELETE" r pattern handler

def Router.Put {T : Type} (r : Router T) (pattern : List Char) (handler : Handler T) :
    Option (Router T) :=
  Router.register "PUT" r pattern handler

def Router.SubRoute {T : Type} (r : Router T) (pattern : List Char) (handler : Handler T) :
    Option (Router T) :=
  (MustCompile ("^".toList ++ pattern)).map (fun regex =>
    { r with next := r.next ++ [{ pattern := regex, method := "ALL",
                                  handler := some handler }] })

/-! ## middlewares.go -/

abbrev Middleware (T : Type) := Handler T → Handler T

/-- The loop of `ChainMiddleware`: `n` is `i + 1`, so that `n = 0` is the exit
`i < 0`. -/
def ChainMiddleware.loop {T : Type} (middlewares : List (Middleware T)) :
    (n : Nat) → n ≤ middlewares.length → Handler T → Handler T
  | 0, _, finalHandler => finalHandler
  | i + 1, hi, finalHandler =>
    ChainMiddleware.loop middlewares i (Nat.le_of_succ_le hi)
      ((middlewares.get ⟨i, hi⟩) finalHandler)

def ChainMiddleware {T : Type} (middlewares : List (Middleware T)) : Middleware T :=
  fun finalHandler =>
    ChainMiddleware.loop middlewares middlewares.length (Nat.le_refl _) finalHandler

def CorsMiddleware {T : Type} (h : Handler T) : Handler T :=
  fun req res => h req (res.HeaderSet "Access-Control-Allow-Origin" "*")

/-! ## Vocabulary of the statements -/

/-- The compiled form of the root pattern `^/$` that `NewRouter` installs. -/
def rootRegexp : Regexp :=
  { expr := "^/$".toList,
    prog := .cat .bol (.cat (.atom (.lit '/')) (.cat .eol .empty)),
    numSubexp := 0 }

/-- The bracket expression `[\w_]` of the parameter-marker pattern. -/
def markerClass : Atom := .cls [.word, .single '_']

/-- The bracket expression `[\w-_]` of the capture group put in place of a
parameter marker. -/
def valueClass : Atom := .cls [.word, .single '-', .single '_']

/-- The compiled form of the parameter-marker pattern `:[\w_]+` that
`Router.Handle` builds on entry. -/
def paramRegexp : Regexp :=
  { expr := ":[\\w_]+".toList,
    prog := .cat (.atom (.lit ':')) (.cat (.plus markerClass) .empty),
    numSubexp := 0 }

/-- The matcher `Router.Handle` builds for a node: the node's pattern text with
every parameter marker replaced by the capture group `([\w-_]+)`. -/
def nodeRegex {T : Type} (node : HandlerNode T) : Option Regexp :=
  MustCompile (paramRegexp.ReplaceAllString node.pattern.String "([\\w-_]+)".toList)

/-- Structural match of a node against a text, ignoring the method: `some true`
or `some false` when the node's matcher compiles, `none` when it does not. -/
def structMatch {T : Type} (node : HandlerNode T) (text : List Char) : Option Bool :=
  (nodeRegex node).map (fun regex => regex.MatchString text)

/-- The request a node's handler receives after a match: the consumed prefix
is the node's pattern text without its anchors, the parameter map is the one
`populateParams` leaves. -/
def Request.matched {T : Type} (req : Request T) (node : HandlerNode T)
    (params : List (List Char × List Char)) : Request T :=
  { req with rootPattern := getStringFromRegex node.pattern, Params := params }

/-- The parameter map `Router.Handle` computes for a node and a request. -/
def nodeParams {T : Type} (node : HandlerNode T) (req : Request T) :
    Option (List (List Char × List Char)) :=
  (nodeRegex node).bind (fun regex =>
    populateParams req.Params (extractParamKeys paramRegexp node.pattern.String)
      req.URL.Path regex)

/-- A middleware that prints `pre`, delegates to the wrapped handler and then
prints `post`, the shape of `LoggingMiddleware`. -/
def recordingMiddleware {T : Type} (pre post : String) : Middleware T :=
  fun h req res => (h req (res.Println pre)).map (fun r => r.Println post)

/-- A handler that prints `event`. -/
def recordingHandler {T : Type} (event : String) : Handler T :=
  fun _ res => some (res.Println event)


/-! ## Patterns of the route syntax -/

/-- Characters that regexp syntax gives a meaning to. -/
def isMeta (c : Char) : Bool :=
  c == '\\' || c == '(' || c == ')' || c == '[' || c == ']' || c == '{' || c == '}' ||
  c == '*' || c == '+' || c == '?' || c == '^' || c == '$' || c == '.' || c == '|'

/-- A character of literal pattern text: without regexp meaning and not the
parameter marker `:`. -/
def isLiteralChar (c : Char) : Bool := !isMeta c && c != ':'

/-- The atoms that match the characters of `w` literally. -/
def litAtoms (w : List Char) : List Re := w.map (fun c => Re.atom (.lit c))

/-- The compiled form of `P/?$` for literal text `P`. -/
def literalRegexp (P : List Char) : Regexp :=
  { expr := P ++ "/?$".toList,
    prog := catList (litAtoms P ++ [.quest (.lit '/'), .eol]),
    numSubexp := 0 }

/-- One segment of a pattern together with the path segment it is matched
against: literal text, or a parameter `:name` and the value in its place. -/
inductive Piece where
  | lit (text : List Char)
  | param (name value : List Char)
  deriving DecidableEq, Repr

/-- The segment as written in the pattern, with its leading slash. -/
def Piece.pattern : Piece → List Char
  | .lit text => '/' :: text
  | .param name _ => '/' :: ':' :: name

/-- The segment as written in the request path, with its leading slash. -/
def Piece.path : Piece → List Char
  | .lit text => '/' :: text
  | .param _ value => '/' :: value

/-- The segment after `Router.Handle` replaced the parameter marker. -/
def Piece.replaced : Piece → List Char
  | .lit text => '/' :: text
  | .param _ _ => '/' :: "([\\w-_]+)".toList

/-- Literal text consists of literal characters; a parameter name is a
non-empty run of word characters, a parameter value a non-empty run of word
characters, hyphens and underscores. -/
def Piece.valid : Piece → Bool
  | .lit text => text.all isLiteralChar
  | .param name value =>
    !name.isEmpty && name.all isWordChar && !value.isEmpty && value.all valueClass.test

def patternOf : List Piece → List Char
  | [] => []
  | p :: ps => p.pattern ++ patternOf ps

def pathOf : List Piece → List Char
  | [] => []
  | p :: ps => p.path ++ pathOf ps

def replacedOf : List Piece → List Char
  | [] => []
  | p :: ps => p.replaced ++ replacedOf ps

/-- The parameter names of a pattern in declared order. -/
def paramNames : List Piece → List (List Char)
  | [] => []
  | .lit _ :: ps => paramNames ps
  | .param name _ :: ps => name :: paramNames ps

/-- The values in the parameter positions of a path, in order. -/
def paramValues : List Piece → List (List Char)
  | [] => []
  | .lit _ :: ps => paramValues ps
  | .param _ value :: ps => value :: paramValues ps

/-- The syntax tree items of a pattern whose markers were replaced, `idx`
capture groups having been opened before. -/
def reItems : Nat → List Piece → List Re
  | _, [] => []
  | idx, .lit text :: ps => litAtoms ('/' :: text) ++ reItems idx ps
  | idx, .param _ _ :: ps =>
    .atom (.lit '/') :: .group (idx + 1) (catList [.plus valueClass]) :: reItems (idx + 1) ps

/-- The compiled form of a pattern whose markers were replaced, followed by
`/?$`. -/
def piecesRegexp (ps : List Piece) : Regexp :=
  { expr := replacedOf ps ++ "/?$".toList,
    prog := catList (reItems 0 ps ++ [.quest (.lit '/'), .eol]),
    numSubexp := (paramNames ps).length }

/-- The captures after the groups of the pieces were filled in order, `idx`
groups having been filled before. -/
def fillCaps : Nat → List Piece → Caps → Caps
  | _, [], caps => caps
  | idx, .lit _ :: ps, caps => fillCaps idx ps caps
  | idx, .param _ value :: ps, caps => fillCaps (idx + 1) ps (caps.set idx (some value))

/-- Successive writes `m[k] = v` for the pairs of a list, in order. -/
def setAll {κ ν : Type} [DecidableEq κ] (m : List (κ × ν)) (kvs : List (κ × ν)) :
    List (κ × ν) :=
  kvs.foldl (fun acc kv => mapSet acc kv.1 kv.2) m

/-- The continuation that ends a match. -/
def accept : Nat → List Char → Caps → Option RunResult :=
  fun p t c => some (p, t, c)

/-- An entry as `Get`, `Post`, `Put`, `Patch` and `Delete` append it for a
pattern, a method label and a handler. -/
def registeredAs {T : Type} (e : HandlerNode T) (method : String) (pattern : List Char)
    (h : Handler T) : Prop :=
  e.pattern.String = pattern ++ "/?$".toList ∧ e.method = method ∧ e.handler = some h

/-! ## Concrete routers, requests and responses -/

/-- A fresh response as `NativeHandler` builds it. -/
def emptyResponse : Response :=
  { Header := [], StatusCode := 0, Body := "", Logger := [] }

/-- A request as `nativeRequestAdaptor` builds it, without headers and body. -/
def plainRequest (method : String) (path : List Char) : Request Unit :=
  { URL := { Path := path }, Header := [], Method := method, Body := none, Params := [],
    Context := { Data := () }, rootPattern := [] }

/-- The handler of `router_test.go`: it reads the parameter `id` with default
`0` and prints it. -/
def HandleFunc : Handler Unit :=
  fun req res => some (res.Println (String.mk (req.GetParam "id".toList "0".toList)))

/-- The routers of `TestNestedRoute`: `/api` on the nested router, which is
mounted under `/v1`. -/
def nestedRouter : Option (Router Unit) :=
  (NewRouter Unit).bind (fun subroute =>
    (subroute.Get "/api".toList HandleFunc).bind (fun subroute =>
      (NewRouter Unit).bind (fun root => root.SubRoute "/v1".toList subroute.Handle)))

/-- The run of `TestNestedRoute` with request method `m`: the request for
`/v1/api` handed to the outer router. -/
def nestedRun (m : String) : Option Response :=
  nestedRouter.bind (fun root =>
    root.Handle (plainRequest m "/v1/api".toList) emptyResponse)

/-- A router with `/health` registered for GET and then for POST. -/
def healthRouter : Router Unit :=
  ((NewRouter Unit).bind (fun r =>
    (r.Get "/health".toList (recordingHandler "GET /health")).bind (fun r =>
      r.Post "/health".toList (recordingHandler "POST /health")))).get rfl

/-- The router of `TestParams`: `/api/:id` registered for GET. -/
def paramsRouter : Router Unit :=
  ((NewRouter Unit).bind (fun r => r.Get "/api/:id".toList HandleFunc)).get rfl

/-! ## server.go: JSON responses -/

/-- The method `Response.WriteJson`.  `Marshal` stands for Go's `json.Marshal`
on values of type `α`: the encoded text, or the text of the error.  On an error
`json.Marshal` returns no bytes, so nothing is appended to the body. -/
def Response.WriteJson {α : Type} (Marshal : α → Except String String) (r : Response)
    (statusCode : Int) (object : α) : Response :=
  match Marshal object with
  | .error err =>
    ((((r.HeaderSet "Content-Type" "application/json").SetStatus
      StatusInternalServerError).Println err).SetStatus statusCode).Write ""
  | .ok jsonres =>
    (((r.HeaderSet "Content-Type" "application/json")).SetStatus statusCode).Write jsonres

/-! ## middlewares.go: logging -/

/-- Go's `io.ReadAll` on a body stream: the text the stream still yields, and
the stream afterwards, which yields nothing more. -/
def ReadAll (body : String) : String × String := (body, "")

/-- The two texts `LoggingMiddleware` prints with `Printf`: the request log,
from the request and the body text read, and the response log. -/
structure LogFormat (T : Type) where
  requestLog : Request T → String → String
  responseLog : Response → String

/-- The request `LoggingMiddleware` hands to the wrapped handler: the body was
read to its end and replaced by a fresh reader over the text read; without a
body the fresh reader is empty. -/
def loggedRequest {T : Type} (req : Request T) : Request T :=
  match req.Body with
  | some stream =>
    let read := ReadAll stream
    let drained : Request T := { req with Body := some read.2 }
    { drained with Body := some read.1 }
  | none => { req with Body := some "" }

/-- The text `LoggingMiddleware` read from the body, empty without a body. -/
def loggedBody {T : Type} (req : Request T) : String :=
  match req.Body with
  | some stream => (ReadAll stream).1
  | none => ""

def LoggingMiddleware {T : Type} (fmt : LogFormat T) (h : Handler T) : Handler T :=
  fun req res =>
    let body := loggedBody req
    let res1 := res.Println (fmt.requestLog req body)
    (h (loggedRequest req) res1).map (fun res2 => res2.Println (fmt.responseLog res2))

/-! ## Further vocabulary -/

/-- The router with one more node at the end of its list. -/
def Router.appended {T : Type} (r : Router T) (node : HandlerNode T) : Router T :=
  { r with next := r.next ++ [node] }

/-- The compiled form of `^P` for literal text `P`. -/
def prefixRegexp (P : List Char) : Regexp :=
  { expr := "^".toList ++ P,
    prog := catList (.bol :: litAtoms P),
    numSubexp := 0 }

/-- Number of opening parentheses in a text. -/
def countOpen : List Char → Nat
  | [] => 0
  | c :: cs => (if c = '(' then 1 else 0) + countOpen cs

/-! ## Further concrete routers and responses -/

/-- A value type whose JSON encoding fails, such as a Go channel. -/
def failingMarshal : Unit → Except String String :=
  fun _ => .error "json: unsupported type: chan int"

/-- A response that already holds the body text `a`. -/
def startedResponse : Response :=
  { Header := [("X-Trace", ["1"])], StatusCode := 0, Body := "a", Logger := [] }

/-- A router with `/health/` registered before `/health`, both for GET. -/
def slashRouter : Router Unit :=
  ((NewRouter Unit).bind (fun r =>
    (r.Get "/health/".toList (recordingHandler "with slash")).bind (fun r =>
      r.Get "/health".toList (recordingHandler "without slash")))).get rfl

/-- A router with the pattern `/a/:id/b/:id`, which declares `id` twice,
registered for GET. -/
def twiceRouter : Option (Router Unit) :=
  (NewRouter Unit).bind (fun r => r.Get "/a/:id/b/:id".toList HandleFunc)

/-- A router with `/` registered for GET once. -/
def rootOnce : Router Unit :=
  ((NewRouter Unit).bind (fun r => r.Get "/".toList (recordingHandler "first"))).get rfl

/-- The router `rootOnce` after `/` was registered for GET a second time. -/
def rootTwice : Option (Router Unit) :=
  rootOnce.Get "/".toList (recordingHandler "second")

/-- A nested router whose only entry is mounted on `/v1/api`, mounted itself
on `/v1` of an outer router. -/
def mountedRouter : Option (Router Unit) :=
  (NewRouter Unit).bind (fun inner =>
    (inner.SubRoute "/v1/api".toList (recordingHandler "leaf")).bind (fun inner =>
      (NewRouter Unit).bind (fun outer => outer.SubRoute "/v1".toList inner.Handle)))

/-- The nested router of `mountedRouter` alone. -/
def innerRouter : Router Unit :=
  ((NewRouter Unit).bind (fun inner =>
    inner.SubRoute "/v1/api".toList (recordingHandler "leaf"))).get rfl

/-- A request as an outer router hands it on after matching the mount prefix
`/v1`: the consumed prefix is recorded. -/
def mountedRequest (method : String) (path : List Char) : Request Unit :=
  { plainRequest method path with rootPattern := "/v1".toList }
/-- A router with `/api/:x` registered for POST before `/api/:id` is registered
for GET. -/
def shadowedRouter : Router Unit :=
  ((NewRouter Unit).bind (fun r =>
    (r.Post "/api/:x".toList (recordingHandler "POST /api/:x")).bind (fun r =>
      r.Get "/api/:id".toList HandleFunc))).get rfl

/-! ## Middleware chain -/

theorem ChainMiddleware.loop_eq_foldr {T : Type} (ms : List (Middleware T)) :
    ∀ (n : Nat) (hn : n ≤ ms.length) (h : Handler T),
      ChainMiddleware.loop ms n hn h = (ms.take n).foldr (fun m acc => m acc) h := by
  intro n
  induction n with
  | zero => intro hn h; simp [ChainMiddleware.loop]
  | succ i ih =>
    intro hn h
    have hlt : i < ms.length := hn
    rw [ChainMiddleware.loop, ih]
    have htake : ms.take (i + 1) = ms.take i ++ [ms.get ⟨i, hlt⟩] := by
      rw [List.take_succ, List.getElem?_eq_getElem hlt]
      rfl
    rw [htake, List.foldr_append]
    rfl

/-- C9: `ChainMiddleware(m1, ..., mn)(h)` is `m1(m2(...mn(h)))`, the right fold
of application over the list. -/
theorem ChainMiddleware_eq_foldr {T : Type} (ms : List (Middleware T)) (h : Handler T) :
    ChainMiddleware ms h = ms.foldr (fun m acc => m acc) h ∧
      ChainMiddleware ([] : List (Middleware T)) h = h := by
  constructor
  · unfold ChainMiddleware
    rw [ChainMiddleware.loop_eq_foldr, List.take_length]
  · rfl

/-- C10: chaining `[A, B]` onto `H` and running it once prints exactly
A-pre, B-pre, H, B-post, A-post, in this order, after what was printed
before. -/
theorem ChainMiddleware_order {T : Type} (aPre aPost bPre bPost ev : String)
    (req : Request T) (res : Response) :
    ChainMiddleware [recordingMiddleware aPre aPost, recordingMiddleware bPre bPost]
        (recordingHandler ev) req res
      = some { res with Logger := res.Logger ++ [aPre, bPre, ev, bPost, aPost] } := by
  simp [ChainMiddleware, ChainMiddleware.loop, recordingMiddleware, recordingHandler,
    Response.Println]

/-! ## The root pattern and the parameter-marker pattern -/

theorem MustCompile_param : MustCompile ":[\\w_]+".toList = some paramRegexp := by rfl

theorem MustCompile_root : MustCompile "^/$".toList = some rootRegexp := by rfl

theorem NewRouter_eq (T : Type) :
    NewRouter T = some { root := { pattern := rootRegexp, method := "", handler := none },
                         next := [] } := by
  rfl

theorem rootRegexp_search_pos (rest : List Char) :
    ∀ (skipped : List Char) (pos : Nat), 0 < pos → rootRegexp.search skipped pos rest = none := by
  induction rest with
  | nil =>
    intro skipped pos hpos
    simp [Regexp.search, Regexp.matchAt, rootRegexp, Re.run, Nat.ne_of_gt hpos]
  | cons c cs ih =>
    intro skipped pos hpos
    simp [Regexp.search, Regexp.matchAt, rootRegexp, Re.run, Nat.ne_of_gt hpos]
    exact ih _ _ (Nat.succ_pos _)

theorem rootRegexp_MatchString (s : List Char) :
    rootRegexp.MatchString s = decide (s = ['/']) := by
  cases s with
  | nil => rfl
  | cons c cs =>
    by_cases hc : c = '/'
    · subst hc
      cases cs with
      | nil => rfl
      | cons d ds =>
        have h := rootRegexp_search_pos (d :: ds) ['/'] 1 (Nat.succ_pos _)
        simp [Regexp.MatchString, Regexp.search, Regexp.matchAt, Re.run, Atom.test]
        simp [rootRegexp, Re.run, Atom.test]
        exact h
    · have h := rootRegexp_search_pos cs [c] 1 (Nat.succ_pos _)
      simp [Regexp.MatchString, Regexp.search, Regexp.matchAt, Re.run, Atom.test, hc]
      simp [rootRegexp, Re.run, Atom.test, hc]
      exact h

/-! ## The scan of `Router.Handle` -/

theorem Handle_eq {T : Type} (r : Router T) (req : Request T) (res : Response) :
    r.Handle req res =
      if r.root.pattern.MatchString req.URL.Path then
        match r.root.handler with
        | none => some (res.WriteText StatusNotImplemented "")
        | some h => h req res
      else Router.scan paramRegexp (r.root :: r.next) req res := by
  unfold Router.Handle
  rw [MustCompile_param]

theorem scan_skip {T : Type} (head : HandlerNode T) (rest : List (HandlerNode T))
    (req : Request T) (res : Response)
    (h : structMatch head (req.rootPattern ++ req.URL.Path) = some false) :
    Router.scan paramRegexp (head :: rest) req res = Router.scan paramRegexp rest req res := by
  unfold structMatch nodeRegex at h
  rw [Router.scan]
  cases hc : MustCompile (paramRegexp.ReplaceAllString head.pattern.String "([\\w-_]+)".toList) with
  | none => rw [hc] at h; simp at h
  | some regex =>
    rw [hc] at h
    simp only [Option.map_some', Option.some.injEq] at h
    simp [h]

theorem scan_skip_all {T : Type} (pre rest : List (HandlerNode T))
    (req : Request T) (res : Response)
    (h : ∀ n ∈ pre, structMatch n (req.rootPattern ++ req.URL.Path) = some false) :
    Router.scan paramRegexp (pre ++ rest) req res = Router.scan paramRegexp rest req res := by
  induction pre with
  | nil => rfl
  | cons n ns ih =>
    rw [List.cons_append, scan_skip n _ req res (h n (List.mem_cons_self _ _))]
    exact ih (fun m hm => h m (List.mem_cons_of_mem _ hm))

theorem scan_hit {T : Type} (head : HandlerNode T) (rest : List (HandlerNode T))
    (req : Request T) (res : Response)
    (h : structMatch head (req.rootPattern ++ req.URL.Path) = some true) :
    Router.scan paramRegexp (head :: rest) req res =
      if head.method ≠ req.Method then some (res.WriteText StatusMethodNotAllowed "")
      else (nodeParams head req).bind (fun params =>
        head.handler.bind (fun f => f (req.matched head params) res)) := by
  unfold structMatch nodeRegex at h
  unfold nodeParams nodeRegex
  rw [Router.scan]
  cases hc : MustCompile (paramRegexp.ReplaceAllString head.pattern.String "([\\w-_]+)".toList) with
  | none => rw [hc] at h; simp at h
  | some regex =>
    rw [hc] at h
    simp only [Option.map_some', Option.some.injEq] at h
    simp only [h, if_true, Option.some_bind]
    by_cases hm : head.method = req.Method
    · simp only [hm, ne_eq, not_true_eq_false, if_false]
      cases populateParams req.Params (extractParamKeys paramRegexp head.pattern.String)
          req.URL.Path regex with
      | none => rfl
      | some params =>
        cases hh : head.handler with
        | none => simp [hh]
        | some f => simp [hh, Request.matched]
    · simp [hm]

theorem structMatch_root {T : Type} (node : HandlerNode T) (hroot : node.pattern = rootRegexp)
    (text : List Char) : structMatch node text = some (decide (text = ['/'])) := by
  unfold structMatch nodeRegex
  rw [hroot]
  have h : MustCompile (paramRegexp.ReplaceAllString rootRegexp.String "([\\w-_]+)".toList)
      = some rootRegexp := by rfl
  rw [h]
  simp [rootRegexp_MatchString]

theorem Handle_scan {T : Type} (r : Router T) (req : Request T) (res : Response)
    (hroot : r.root.pattern = rootRegexp) (hpath : req.URL.Path ≠ ['/'])
    (htext : req.rootPattern ++ req.URL.Path ≠ ['/']) :
    r.Handle req res = Router.scan paramRegexp r.next req res := by
  rw [Handle_eq, hroot, rootRegexp_MatchString]
  simp only [hpath, decide_False, Bool.false_eq_true, if_false]
  apply scan_skip
  rw [structMatch_root _ hroot]
  simp [htext]

/-- The scan answers 404 when no entry structurally matches. -/
theorem Handle_no_hit {T : Type} (r : Router T) (req : Request T) (res : Response)
    (hroot : r.root.pattern = rootRegexp) (hpath : req.URL.Path ≠ "/".toList)
    (htext : req.rootPattern ++ req.URL.Path ≠ "/".toList)
    (hno : ∀ e ∈ r.next, structMatch e (req.rootPattern ++ req.URL.Path) = some false) :
    r.Handle req res
        = some ((res.WriteText StatusNotFound "").Println
            "No routes found. Request reached end of the chain.") := by
  rw [Handle_scan r req res hroot hpath htext]
  have h := scan_skip_all r.next [] req res hno
  rw [List.append_nil] at h
  rw [h]
  rfl

/-- The scan stops at the first entry that structurally matches. -/
theorem Handle_first_hit {T : Type} (r : Router T) (req : Request T) (res : Response)
    (pre post : List (HandlerNode T)) (e : HandlerNode T)
    (hroot : r.root.pattern = rootRegexp) (hpath : req.URL.Path ≠ "/".toList)
    (htext : req.rootPattern ++ req.URL.Path ≠ "/".toList)
    (hnext : r.next = pre ++ e :: post)
    (hpre : ∀ n ∈ pre, structMatch n (req.rootPattern ++ req.URL.Path) = some false)
    (he : structMatch e (req.rootPattern ++ req.URL.Path) = some true) :
    r.Handle req res =
      if e.method ≠ req.Method then some (res.WriteText StatusMethodNotAllowed "")
      else (nodeParams e req).bind (fun params =>
        e.handler.bind (fun f => f (req.matched e params) res)) := by
  rw [Handle_scan r req res hroot hpath htext, hnext, scan_skip_all pre _ req res hpre,
    scan_hit e post req res he]

/-- The first matching entry, registered for the request's method, with its
parameter map computed, has its handler called. -/
theorem Handle_first_hit_invokes {T : Type} (r : Router T) (req : Request T) (res : Response)
    (pre post : List (HandlerNode T)) (e : HandlerNode T) (h : Handler T)
    (params : List (List Char × List Char))
    (hroot : r.root.pattern = rootRegexp) (hpath : req.URL.Path ≠ "/".toList)
    (htext : req.rootPattern ++ req.URL.Path ≠ "/".toList)
    (hnext : r.next = pre ++ e :: post)
    (hpre : ∀ n ∈ pre, structMatch n (req.rootPattern ++ req.URL.Path) = some false)
    (he : structMatch e (req.rootPattern ++ req.URL.Path) = some true)
    (hm : e.method = req.Method) (hp : nodeParams e req = some params)
    (hh : e.handler = some h) :
    r.Handle req res = h (req.matched e params) res := by
  rw [Handle_first_hit r req res pre post e hroot hpath htext hnext hpre he,
    if_neg (not_not.mpr hm), hp, hh]
  rfl

/-- The first matching entry, registered for another method, makes the answer
405. -/
theorem Handle_first_hit_rejects {T : Type} (r : Router T) (req : Request T) (res : Response)
    (pre post : List (HandlerNode T)) (e : HandlerNode T)
    (hroot : r.root.pattern = rootRegexp) (hpath : req.URL.Path ≠ "/".toList)
    (htext : req.rootPattern ++ req.URL.Path ≠ "/".toList)
    (hnext : r.next = pre ++ e :: post)
    (hpre : ∀ n ∈ pre, structMatch n (req.rootPattern ++ req.URL.Path) = some false)
    (he : structMatch e (req.rootPattern ++ req.URL.Path) = some true)
    (hm : e.method ≠ req.Method) :
    r.Handle req res = some (res.WriteText StatusMethodNotAllowed "") := by
  rw [Handle_first_hit r req res pre post e hroot hpath htext hnext hpre he, if_pos hm]

/-! ## Resolution outcomes -/

/-- C6: on the path `/`, whatever the method, a router without root handler
answers 501 and calls nothing, and a router with a root handler does exactly
what that handler does, without looking at its entries. -/
theorem Handle_root_path {T : Type} (r : Router T) (req : Request T) (res : Response)
    (hroot : r.root.pattern = rootRegexp) (hpath : req.URL.Path = "/".toList) :
    (r.root.handler = none →
        r.Handle req res = some (res.WriteText StatusNotImplemented "") ∧
        (res.WriteText StatusNotImplemented "").StatusCode = 501) ∧
    (∀ h, r.root.handler = some h → r.Handle req res = h req res) := by
  have hm : r.root.pattern.MatchString req.URL.Path = true := by
    rw [hroot, rootRegexp_MatchString, hpath]; rfl
  refine ⟨fun hn => ⟨?_, rfl⟩, fun h hh => ?_⟩
  · rw [Handle_eq, hm, hn]; rfl
  · rw [Handle_eq, hm, hh]; rfl

/-- C7: when the path is not `/` and no entry structurally matches the text
the router tests (the consumed prefix followed by the path, the path itself
for a request that enters a top-level router), the router answers 404, prints
its log line and calls no handler. -/
theorem Handle_not_found {T : Type} (r : Router T) (req : Request T) (res : Response)
    (hroot : r.root.pattern = rootRegexp) (hpath : req.URL.Path ≠ "/".toList)
    (htext : req.rootPattern ++ req.URL.Path ≠ "/".toList)
    (hno : ∀ e ∈ r.next, structMatch e (req.rootPattern ++ req.URL.Path) = some false) :
    r.Handle req res
        = some ((res.WriteText StatusNotFound "").Println
            "No routes found. Request reached end of the chain.") ∧
      ((res.WriteText StatusNotFound "").Println
            "No routes found. Request reached end of the chain.").StatusCode = 404 := by
  exact ⟨Handle_no_hit r req res hroot hpath htext hno, rfl⟩

/-- C2: when the path is not `/`, the first entry `e`, in insertion order, that
structurally matches decides alone: on a different method the router answers
405 and calls nothing, whatever the entries after `e` are; on the same method
the outcome is that of filling the parameter map from `e` and calling the
handler of `e` once. -/
theorem Handle_first_match {T : Type} (r : Router T) (req : Request T) (res : Response)
    (pre post : List (HandlerNode T)) (e : HandlerNode T)
    (hroot : r.root.pattern = rootRegexp) (hpath : req.URL.Path ≠ "/".toList)
    (htext : req.rootPattern ++ req.URL.Path ≠ "/".toList)
    (hnext : r.next = pre ++ e :: post)
    (hpre : ∀ n ∈ pre, structMatch n (req.rootPattern ++ req.URL.Path) = some false)
    (he : structMatch e (req.rootPattern ++ req.URL.Path) = some true) :
    (e.method ≠ req.Method →
        r.Handle req res = some (res.WriteText StatusMethodNotAllowed "") ∧
        (res.WriteText StatusMethodNotAllowed "").StatusCode = 405) ∧
    (e.method = req.Method →
        r.Handle req res = (nodeParams e req).bind (fun params =>
          e.handler.bind (fun h => h (req.matched e params) res)) ∧
        ∀ params h, nodeParams e req = some params → e.handler = some h →
          r.Handle req res = h (req.matched e params) res) := by
  have hs := Handle_first_hit r req res pre post e hroot hpath htext hnext hpre he
  refine ⟨fun hm => ⟨?_, rfl⟩, fun hm => ?_⟩
  · rw [hs, if_pos hm]
  · have hb : r.Handle req res = (nodeParams e req).bind (fun params =>
          e.handler.bind (fun h => h (req.matched e params) res)) := by
      rw [hs, if_neg (not_not.mpr hm)]
    refine ⟨hb, fun params h hp hh => ?_⟩
    rw [hb, hp, hh]
    rfl

/-! ## Concrete runs -/

/-- C1: on the routers of `TestNestedRoute` a request for `/v1/api` is answered
405 for each of GET, POST, PUT, PATCH and DELETE, and also for the method text
`ALL`; the nested handler is not called. -/
theorem SubRoute_rejects_every_method :
    nestedRun "GET" = some (emptyResponse.WriteText StatusMethodNotAllowed "") ∧
    nestedRun "POST" = some (emptyResponse.WriteText StatusMethodNotAllowed "") ∧
    nestedRun "PUT" = some (emptyResponse.WriteText StatusMethodNotAllowed "") ∧
    nestedRun "PATCH" = some (emptyResponse.WriteText StatusMethodNotAllowed "") ∧
    nestedRun "DELETE" = some (emptyResponse.WriteText StatusMethodNotAllowed "") ∧
    nestedRun "ALL" = some (emptyResponse.WriteText StatusMethodNotAllowed "") ∧
    (emptyResponse.WriteText StatusMethodNotAllowed "").StatusCode = 405 ∧
    (emptyResponse.WriteText StatusMethodNotAllowed "").Logger = [] := by
  decide

theorem Handle_root_path_witness :
    healthRouter.root.pattern = rootRegexp ∧
    (plainRequest "POST" "/".toList).URL.Path = "/".toList ∧
    healthRouter.Handle (plainRequest "POST" "/".toList) emptyResponse
      = some (emptyResponse.WriteText StatusNotImplemented "") :=
  ⟨rfl, rfl, ((Handle_root_path healthRouter (plainRequest "POST" "/".toList) emptyResponse
    rfl rfl).1 rfl).1⟩

theorem Handle_not_found_witness :
    healthRouter.root.pattern = rootRegexp ∧
    (plainRequest "GET" "/nothing".toList).URL.Path ≠ "/".toList ∧
    (∀ e ∈ healthRouter.next, structMatch e "/nothing".toList = some false) ∧
    healthRouter.Handle (plainRequest "GET" "/nothing".toList) emptyResponse
      = some ((emptyResponse.WriteText StatusNotFound "").Println
            "No routes found. Request reached end of the chain.") :=
  ⟨rfl, by decide, by decide,
    (Handle_not_found healthRouter (plainRequest "GET" "/nothing".toList) emptyResponse
      rfl (by decide) (by decide) (by decide)).1⟩

theorem Handle_first_match_witness :
    healthRouter.root.pattern = rootRegexp ∧
    (plainRequest "POST" "/health".toList).URL.Path ≠ "/".toList ∧
    healthRouter.next = [] ++ healthRouter.next.get ⟨0, by decide⟩ :: healthRouter.next.drop 1 ∧
    structMatch (healthRouter.next.get ⟨0, by decide⟩) "/health".toList = some true ∧
    (healthRouter.next.get ⟨0, by decide⟩).method ≠ "POST" ∧
    (∃ e ∈ healthRouter.next.drop 1,
      structMatch e "/health".toList = some true ∧ e.method = "POST") ∧
    healthRouter.Handle (plainRequest "POST" "/health".toList) emptyResponse
      = some (emptyResponse.WriteText StatusMethodNotAllowed "") ∧
    healthRouter.Handle (plainRequest "GET" "/health".toList) emptyResponse
      = some (emptyResponse.Println "GET /health") :=
  ⟨rfl, by decide, rfl, by decide, by decide, by decide,
    ((Handle_first_match healthRouter (plainRequest "POST" "/health".toList) emptyResponse
      [] (healthRouter.next.drop 1) (healthRouter.next.get ⟨0, by decide⟩)
      rfl (by decide) (by decide) rfl (by decide) (by decide)).1 (by decide)).1,
    ((Handle_first_match healthRouter (plainRequest "GET" "/health".toList) emptyResponse
      [] (healthRouter.next.drop 1) (healthRouter.next.get ⟨0, by decide⟩)
      rfl (by decide) (by decide) rfl (by decide) (by decide)).2 rfl).1⟩

/-! ## The matcher: generic facts -/

/-- Greedy repetition takes the whole run when what follows the run accepts. -/
theorem starLoop_greedy (a : Atom) (k : Nat → List Char → Option RunResult) (t : List Char)
    (ht : ∀ c t1, t = c :: t1 → a.test c = false) :
    ∀ (w : List Char) (pos : Nat), (∀ c ∈ w, a.test c = true) →
      (k (pos + w.length) t).isSome →
      starLoop a k pos (w ++ t) = k (pos + w.length) t := by
  intro w
  induction w with
  | nil =>
    intro pos _ _
    cases t with
    | nil => simp [starLoop]
    | cons c t1 => simp [starLoop, ht c t1 rfl]
  | cons c w ih =>
    intro pos hw hk
    have hc : a.test c = true := hw c (List.mem_cons_self _ _)
    have hw1 : ∀ d ∈ w, a.test d = true := fun d hd => hw d (List.mem_cons_of_mem _ hd)
    have hpos : pos + (c :: w).length = pos + 1 + w.length := by
      simp only [List.length_cons]; omega
    rw [hpos] at hk ⊢
    have h1 := ih (pos + 1) hw1 hk
    cases hr : k (pos + 1 + w.length) t with
    | none => rw [hr] at hk; simp at hk
    | some r =>
      rw [hr] at h1
      rw [List.cons_append, starLoop]
      simp only [hc, if_true, h1]

/-- A successful greedy repetition took a run of accepted characters and
handed the rest to its continuation. -/
theorem starLoop_sound (a : Atom) (k : Nat → List Char → Option RunResult) :
    ∀ (rest : List Char) (pos : Nat) (r : RunResult), starLoop a k pos rest = some r →
      ∃ w t, rest = w ++ t ∧ (∀ c ∈ w, a.test c = true) ∧ k (pos + w.length) t = some r := by
  intro rest
  induction rest with
  | nil =>
    intro pos r h
    exact ⟨[], [], rfl, by simp, by simpa [starLoop] using h⟩
  | cons c cs ih =>
    intro pos r h
    by_cases hc : a.test c = true
    · simp only [starLoop, hc, if_true] at h
      cases hs : starLoop a k (pos + 1) cs with
      | none =>
        rw [hs] at h
        exact ⟨[], c :: cs, rfl, by simp, by simpa using h⟩
      | some r1 =>
        rw [hs] at h
        simp only [Option.some.injEq] at h
        subst h
        obtain ⟨w, t, hcs, hw, hk⟩ := ih (pos + 1) r1 hs
        refine ⟨c :: w, t, by simp [hcs], ?_, ?_⟩
        · intro d hd
          rcases List.mem_cons.mp hd with hd | hd
          · rw [hd]; exact hc
          · exact hw d hd
        · have : pos + (c :: w).length = pos + 1 + w.length := by
            simp only [List.length_cons]; omega
          rw [this]; exact hk
    · have hc1 : a.test c = false := by simpa using hc
      simp only [starLoop, hc1, Bool.false_eq_true, if_false] at h
      exact ⟨[], c :: cs, rfl, by simp, by simpa using h⟩

theorem catList_append_run (xs ys : List Re) (pos : Nat) (rest : List Char) (caps : Caps)
    (k : Nat → List Char → Caps → Option RunResult) :
    (catList (xs ++ ys)).run pos rest caps k
      = (catList xs).run pos rest caps (fun p t c => (catList ys).run p t c k) := by
  induction xs generalizing pos rest caps k with
  | nil => simp [catList, Re.run]
  | cons x xs ih =>
    simp only [List.cons_append, catList, Re.run]
    congr 1
    funext p t c
    exact ih p t c k

/-- Literal atoms run through their own text. -/
theorem litAtoms_run (w t : List Char) (pos : Nat) (caps : Caps)
    (k : Nat → List Char → Caps → Option RunResult) :
    (catList (litAtoms w)).run pos (w ++ t) caps k = k (pos + w.length) t caps := by
  induction w generalizing pos with
  | nil => simp [litAtoms, catList, Re.run]
  | cons c w ih =>
    have h := ih (pos + 1)
    simp only [litAtoms] at h
    simp only [litAtoms, List.map_cons, catList, Re.run, List.cons_append, Atom.test,
      beq_self_eq_true, if_true, h, List.length_cons]
    congr 1
    omega

/-- Literal atoms succeed only on a text that starts with their own text. -/
theorem litAtoms_run_sound (w : List Char) :
    ∀ (rest : List Char) (pos : Nat) (caps : Caps)
      (k : Nat → List Char → Caps → Option RunResult) (r : RunResult),
      (catList (litAtoms w)).run pos rest caps k = some r →
      ∃ t, rest = w ++ t ∧ k (pos + w.length) t caps = some r := by
  induction w with
  | nil =>
    intro rest pos caps k r h
    exact ⟨rest, rfl, by simpa [litAtoms, catList, Re.run] using h⟩
  | cons c w ih =>
    intro rest pos caps k r h
    cases rest with
    | nil => simp [litAtoms, catList, Re.run] at h
    | cons d ds =>
      simp only [litAtoms, List.map_cons, catList, Re.run, Atom.test] at h
      by_cases hd : d = c
      · subst hd
        simp only [beq_self_eq_true, if_true] at h
        obtain ⟨t, hds, hk⟩ := ih ds (pos + 1) caps k r h
        refine ⟨t, by simp [hds], ?_⟩
        have : pos + (d :: w).length = pos + 1 + w.length := by
          simp only [List.length_cons]; omega
        rw [this]; exact hk
      · have : (d == c) = false := by simpa using hd
        simp [this] at h

/-! ## The parser on patterns of the route syntax -/

theorem isLiteralChar_step (c : Char) (hc : isLiteralChar c = true) (cur : List Re)
    (stack : List (Nat × List Re)) (ncap : Nat) :
    step ⟨cur, stack, ncap, .normal⟩ c = some ⟨.atom (.lit c) :: cur, stack, ncap, .normal⟩ := by
  simp only [isLiteralChar, isMeta, Bool.and_eq_true, Bool.not_eq_true', Bool.or_eq_false_iff,
    beq_eq_false_iff_ne, bne_iff_ne, ne_eq] at hc
  obtain ⟨⟨⟨⟨⟨⟨⟨⟨⟨⟨⟨⟨⟨⟨h1, h2⟩, h3⟩, h4⟩, h5⟩, h6⟩, h7⟩, h8⟩, h9⟩, h10⟩, h11⟩, h12⟩, h13⟩, h14⟩, _⟩ := hc
  simp [step, stepNormal, h1, h2, h3, h4, h5, h6, h7, h8, h9, h10, h11, h12, h13, h14]

theorem parseFrom_literal (w : List Char) (hw : ∀ c ∈ w, isLiteralChar c = true) :
    ∀ (cur : List Re) (stack : List (Nat × List Re)) (ncap : Nat) (rest : List Char),
      parseFrom ⟨cur, stack, ncap, .normal⟩ (w ++ rest)
        = parseFrom ⟨(litAtoms w).reverse ++ cur, stack, ncap, .normal⟩ rest := by
  induction w with
  | nil => intro cur stack ncap rest; simp [litAtoms]
  | cons c w ih =>
    intro cur stack ncap rest
    have hc := hw c (List.mem_cons_self _ _)
    have hw1 : ∀ d ∈ w, isLiteralChar d = true := fun d hd => hw d (List.mem_cons_of_mem _ hd)
    rw [List.cons_append, parseFrom, isLiteralChar_step c hc, Option.some_bind, ih hw1]
    simp [litAtoms]

theorem parseFrom_group (cur : List Re) (stack : List (Nat × List Re)) (ncap : Nat)
    (rest : List Char) :
    parseFrom ⟨cur, stack, ncap, .normal⟩ ("([\\w-_]+)".toList ++ rest)
      = parseFrom ⟨.group (ncap + 1) (catList [.plus valueClass]) :: cur, stack, ncap + 1,
          .normal⟩ rest := by
  rfl

theorem parseFrom_tail (cur : List Re) (stack : List (Nat × List Re)) (ncap : Nat) :
    parseFrom ⟨cur, stack, ncap, .normal⟩ "/?$".toList
      = some ⟨.eol :: .quest (.lit '/') :: cur, stack, ncap, .normal⟩ := by
  rfl

theorem isLiteralChar_slash : isLiteralChar '/' = true := by decide

/-- A literal pattern followed by `/?$` compiles to its literal atoms followed
by the optional slash and the end anchor. -/
theorem MustCompile_literal (P : List Char) (hP : ∀ c ∈ P, isLiteralChar c = true) :
    MustCompile (P ++ "/?$".toList) = some (literalRegexp P) := by
  unfold MustCompile
  rw [parseFrom_literal P hP, parseFrom_tail]
  simp [literalRegexp, List.reverse_append]

theorem parseFrom_pieces (ps : List Piece) (hps : ∀ p ∈ ps, p.valid = true) :
    ∀ (cur : List Re) (stack : List (Nat × List Re)) (ncap : Nat) (rest : List Char),
      parseFrom ⟨cur, stack, ncap, .normal⟩ (replacedOf ps ++ rest)
        = parseFrom ⟨(reItems ncap ps).reverse ++ cur, stack,
            ncap + (paramNames ps).length, .normal⟩ rest := by
  induction ps with
  | nil => intro cur stack ncap rest; simp [replacedOf, reItems, paramNames]
  | cons p ps ih =>
    intro cur stack ncap rest
    have hps1 : ∀ q ∈ ps, q.valid = true := fun q hq => hps q (List.mem_cons_of_mem _ hq)
    have hp := hps p (List.mem_cons_self _ _)
    cases p with
    | lit text =>
      have hlit : ∀ c ∈ '/' :: text, isLiteralChar c = true := by
        intro c hc
        rcases List.mem_cons.mp hc with hc | hc
        · rw [hc]; exact isLiteralChar_slash
        · simp only [Piece.valid, List.all_eq_true] at hp
          exact hp c hc
      simp only [replacedOf, Piece.replaced, reItems, paramNames, List.append_assoc]
      rw [parseFrom_literal _ hlit, ih hps1]
      simp [List.reverse_append]
    | param name value =>
      simp only [replacedOf, Piece.replaced, reItems, paramNames, List.append_assoc,
        List.cons_append]
      rw [parseFrom, isLiteralChar_step '/' isLiteralChar_slash, Option.some_bind,
        parseFrom_group, ih hps1]
      simp [List.reverse_append, Nat.add_assoc, Nat.add_comm 1]

/-- A pattern of the route syntax whose markers were replaced compiles, with
one capture group per parameter. -/
theorem MustCompile_pieces (ps : List Piece) (hps : ∀ p ∈ ps, p.valid = true) :
    MustCompile (replacedOf ps ++ "/?$".toList) = some (piecesRegexp ps) := by
  unfold MustCompile
  rw [parseFrom_pieces ps hps, parseFrom_tail]
  simp [piecesRegexp, List.reverse_append]

/-! ## The parameter-marker pattern on pattern text -/

theorem markerClass_test_of_word (c : Char) (hc : isWordChar c = true) :
    markerClass.test c = true := by
  simp [markerClass, Atom.test, ClassItem.test, hc]

theorem valueClass_test_slash : valueClass.test '/' = false := by decide

theorem markerClass_test_slash : markerClass.test '/' = false := by decide

theorem Atom.test_lit (x c : Char) : (Atom.lit x).test c = (c == x) := rfl

theorem paramRegexp_matchAt_nil (pos : Nat) : paramRegexp.matchAt pos [] = none := by
  rfl

theorem paramRegexp_matchAt_ne (pos : Nat) (c : Char) (cs : List Char) (hc : c ≠ ':') :
    paramRegexp.matchAt pos (c :: cs) = none := by
  simp [Regexp.matchAt, paramRegexp, Re.run, Atom.test, hc]

theorem paramRegexp_matchAt_marker (pos : Nat) (name t : List Char) (hne : name ≠ [])
    (hname : ∀ c ∈ name, isWordChar c = true) :
    paramRegexp.matchAt pos (':' :: name ++ '/' :: t)
      = some (pos + 1 + name.length, '/' :: t, []) := by
  cases name with
  | nil => exact absurd rfl hne
  | cons c name =>
    have hc : markerClass.test c = true :=
      markerClass_test_of_word c (hname c (List.mem_cons_self _ _))
    have hrest : ∀ d ∈ name, markerClass.test d = true := fun d hd =>
      markerClass_test_of_word d (hname d (List.mem_cons_of_mem _ hd))
    have hg := starLoop_greedy markerClass
      (fun p r => (some (p, r, ([] : Caps)) : Option RunResult)) ('/' :: t)
      (by intro d t1 h; injection h with h1 _; rw [← h1]; exact markerClass_test_slash)
      name (pos + 1 + 1) hrest rfl
    simp only [Regexp.matchAt, paramRegexp, Re.run, Atom.test_lit, beq_self_eq_true, if_true,
      List.cons_append, hc, List.replicate]
    rw [hg]
    simp only [List.length_cons]
    congr 2
    omega

theorem paramRegexp_search_skip (w : List Char) (hw : ∀ c ∈ w, c ≠ ':') :
    ∀ (skipped : List Char) (pos : Nat) (rest : List Char), rest ≠ [] →
      paramRegexp.search skipped pos (w ++ rest)
        = paramRegexp.search (w.reverse ++ skipped) (pos + w.length) rest := by
  induction w with
  | nil => intro skipped pos rest _; rfl
  | cons c w ih =>
    intro skipped pos rest hrest
    have hc := hw c (List.mem_cons_self _ _)
    have hw1 : ∀ d ∈ w, d ≠ ':' := fun d hd => hw d (List.mem_cons_of_mem _ hd)
    rw [List.cons_append, Regexp.search, paramRegexp_matchAt_ne pos c _ hc]
    simp only
    rw [ih hw1 _ _ rest hrest]
    simp only [List.reverse_cons, List.append_assoc, List.singleton_append, List.length_cons]
    congr 1
    omega

theorem paramRegexp_search_none (w : List Char) (hw : ∀ c ∈ w, c ≠ ':') :
    ∀ (skipped : List Char) (pos : Nat), paramRegexp.search skipped pos w = none := by
  induction w with
  | nil => intro skipped pos; rfl
  | cons c w ih =>
    intro skipped pos
    have hc := hw c (List.mem_cons_self _ _)
    have hw1 : ∀ d ∈ w, d ≠ ':' := fun d hd => hw d (List.mem_cons_of_mem _ hd)
    rw [Regexp.search, paramRegexp_matchAt_ne pos c _ hc]
    exact ih hw1 _ _

/-- From a search position the marker pattern passes over text without `:`
and matches the next marker up to the slash after its name. -/
theorem paramRegexp_search_marker (w name t : List Char) (pos : Nat)
    (hw : ∀ c ∈ w, c ≠ ':') (hne : name ≠ []) (hname : ∀ c ∈ name, isWordChar c = true) :
    paramRegexp.search [] pos (w ++ ':' :: name ++ '/' :: t)
      = some { start := pos + w.length, stop := pos + w.length + 1 + name.length,
               skipped := w, text := ':' :: name, after := '/' :: t, caps := [] } := by
  have h := paramRegexp_search_skip w hw [] pos (':' :: name ++ '/' :: t) (by simp)
  rw [List.append_assoc] at *
  rw [h, List.cons_append, Regexp.search, ← List.cons_append,
    paramRegexp_matchAt_marker _ name t hne hname]
  simp only [List.append_nil, List.reverse_reverse, Match.mk.injEq, true_and, and_true]
  have hlen : pos + w.length + 1 + name.length - (pos + w.length) = (':' :: name).length := by
    simp only [List.length_cons]; omega
  rw [hlen, List.take_left' rfl]

theorem isLiteralChar_ne_colon (c : Char) (hc : isLiteralChar c = true) : c ≠ ':' := by
  simp only [isLiteralChar, Bool.and_eq_true, bne_iff_ne, ne_eq] at hc
  exact hc.2

theorem Piece.valid_lit {text : List Char} (h : (Piece.lit text).valid = true) :
    ∀ c ∈ text, isLiteralChar c = true := by
  simpa [Piece.valid] using h

theorem Piece.valid_param {name value : List Char} (h : (Piece.param name value).valid = true) :
    name ≠ [] ∧ (∀ c ∈ name, isWordChar c = true) ∧ value ≠ [] ∧
      (∀ c ∈ value, valueClass.test c = true) := by
  simp only [Piece.valid, Bool.and_eq_true, Bool.not_eq_true', List.isEmpty_eq_false,
    List.all_eq_true] at h
  obtain ⟨⟨⟨h1, h2⟩, h3⟩, h4⟩ := h
  exact ⟨h1, h2, h3, h4⟩

/-- Pattern text followed by a slash starts with a slash. -/
theorem patternOf_slash (ps : List Piece) (tl : List Char) :
    ∃ t, patternOf ps ++ '/' :: tl = '/' :: t := by
  cases ps with
  | nil => exact ⟨tl, rfl⟩
  | cons p ps =>
    cases p with
    | lit text => exact ⟨text ++ patternOf ps ++ '/' :: tl, by simp [patternOf, Piece.pattern]⟩
    | param name value =>
      exact ⟨':' :: name ++ patternOf ps ++ '/' :: tl, by simp [patternOf, Piece.pattern]⟩

theorem replaceAll_pieces (tl : List Char) (htl : ∀ c ∈ tl, c ≠ ':') (ps : List Piece)
    (hps : ∀ p ∈ ps, p.valid = true) :
    ∀ (w : List Char) (fuel pos last : Nat), (∀ c ∈ w, c ≠ ':') →
      (paramNames ps).length < fuel → last ≤ pos →
      paramRegexp.replaceAll "([\\w-_]+)".toList fuel pos (w ++ patternOf ps ++ '/' :: tl) last
        = w ++ replacedOf ps ++ '/' :: tl := by
  induction ps with
  | nil =>
    intro w fuel pos last hw hfuel _
    cases fuel with
    | zero => simp at hfuel
    | succ f =>
      have hnone : paramRegexp.search [] pos (w ++ '/' :: tl) = none := by
        apply paramRegexp_search_none
        intro c hc
        rcases List.mem_append.mp hc with h | h
        · exact hw c h
        · rcases List.mem_cons.mp h with h | h
          · rw [h]; decide
          · exact htl c h
      simp only [patternOf, replacedOf, List.append_nil]
      rw [Regexp.replaceAll, hnone]
  | cons p ps ih =>
    intro w fuel pos last hw hfuel hlast
    have hps1 : ∀ q ∈ ps, q.valid = true := fun q hq => hps q (List.mem_cons_of_mem _ hq)
    have hp := hps p (List.mem_cons_self _ _)
    cases p with
    | lit text =>
      have hw1 : ∀ c ∈ w ++ '/' :: text, c ≠ ':' := by
        intro c hc
        rcases List.mem_append.mp hc with h | h
        · exact hw c h
        · rcases List.mem_cons.mp h with h | h
          · rw [h]; decide
          · exact isLiteralChar_ne_colon c (Piece.valid_lit hp c h)
      have h := ih hps1 (w ++ '/' :: text) fuel pos last hw1 hfuel hlast
      simp only [patternOf, replacedOf, Piece.pattern, Piece.replaced, List.append_assoc,
        List.cons_append] at h ⊢
      exact h
    | param name value =>
      obtain ⟨hne, hname, _, _⟩ := Piece.valid_param hp
      obtain ⟨t, ht⟩ := patternOf_slash ps tl
      cases fuel with
      | zero => simp at hfuel
      | succ f =>
        have hw1 : ∀ c ∈ w ++ ['/'], c ≠ ':' := by
          intro c hc
          rcases List.mem_append.mp hc with h | h
          · exact hw c h
          · rw [List.mem_singleton.mp h]; decide
        have hs := paramRegexp_search_marker (w ++ ['/']) name t pos hw1 hne hname
        have htext : w ++ patternOf (Piece.param name value :: ps) ++ '/' :: tl
            = (w ++ ['/']) ++ ':' :: name ++ '/' :: t := by
          simp only [patternOf, Piece.pattern, List.append_assoc, List.cons_append,
            List.nil_append, ht]
        have hf : (paramNames ps).length < f := by
          simp only [paramNames, List.length_cons] at hfuel; omega
        have hrec := ih hps1 [] f (pos + (w ++ ['/']).length + 1 + name.length)
          (pos + (w ++ ['/']).length + 1 + name.length) (by simp) hf (Nat.le_refl _)
        simp only [List.nil_append, ht] at hrec
        rw [htext, Regexp.replaceAll, hs]
        simp only
        rw [hrec]
        have h1 : pos + (w ++ ['/']).length + 1 + name.length > last := by omega
        have h2 : ¬ (pos + 1 > pos + (w ++ ['/']).length + 1 + name.length) := by omega
        simp only [h1, true_or, if_true, h2, if_false]
        simp only [replacedOf, Piece.replaced, List.append_assoc, List.cons_append,
          List.nil_append, ← ht]

theorem allMatches_pieces (tl : List Char) (htl : ∀ c ∈ tl, c ≠ ':') (ps : List Piece)
    (hps : ∀ p ∈ ps, p.valid = true) :
    ∀ (w : List Char) (fuel pos : Nat) (prev : Option Nat), (∀ c ∈ w, c ≠ ':') →
      (paramNames ps).length < fuel →
      (paramRegexp.allMatches fuel pos (w ++ patternOf ps ++ '/' :: tl) prev).map
          (fun m => m.text)
        = (paramNames ps).map (fun name => ':' :: name) := by
  induction ps with
  | nil =>
    intro w fuel pos prev hw hfuel
    cases fuel with
    | zero => simp at hfuel
    | succ f =>
      have hnone : paramRegexp.search [] pos (w ++ '/' :: tl) = none := by
        apply paramRegexp_search_none
        intro c hc
        rcases List.mem_append.mp hc with h | h
        · exact hw c h
        · rcases List.mem_cons.mp h with h | h
          · rw [h]; decide
          · exact htl c h
      simp only [patternOf, List.append_nil, paramNames, List.map_nil]
      rw [Regexp.allMatches, hnone]
      rfl
  | cons p ps ih =>
    intro w fuel pos prev hw hfuel
    have hps1 : ∀ q ∈ ps, q.valid = true := fun q hq => hps q (List.mem_cons_of_mem _ hq)
    have hp := hps p (List.mem_cons_self _ _)
    cases p with
    | lit text =>
      have hw1 : ∀ c ∈ w ++ '/' :: text, c ≠ ':' := by
        intro c hc
        rcases List.mem_append.mp hc with h | h
        · exact hw c h
        · rcases List.mem_cons.mp h with h | h
          · rw [h]; decide
          · exact isLiteralChar_ne_colon c (Piece.valid_lit hp c h)
      have h := ih hps1 (w ++ '/' :: text) fuel pos prev hw1 hfuel
      simp only [patternOf, paramNames, Piece.pattern, List.append_assoc,
        List.cons_append] at h ⊢
      exact h
    | param name value =>
      obtain ⟨hne, hname, _, _⟩ := Piece.valid_param hp
      obtain ⟨t, ht⟩ := patternOf_slash ps tl
      cases fuel with
      | zero => simp at hfuel
      | succ f =>
        have hw1 : ∀ c ∈ w ++ ['/'], c ≠ ':' := by
          intro c hc
          rcases List.mem_append.mp hc with h | h
          · exact hw c h
          · rw [List.mem_singleton.mp h]; decide
        have hs := paramRegexp_search_marker (w ++ ['/']) name t pos hw1 hne hname
        have htext : w ++ patternOf (Piece.param name value :: ps) ++ '/' :: tl
            = (w ++ ['/']) ++ ':' :: name ++ '/' :: t := by
          simp only [patternOf, Piece.pattern, List.append_assoc, List.cons_append,
            List.nil_append, ht]
        have hf : (paramNames ps).length < f := by
          simp only [paramNames, List.length_cons] at hfuel; omega
        have hrec := ih hps1 [] f (pos + (w ++ ['/']).length + 1 + name.length)
          (some (pos + (w ++ ['/']).length + 1 + name.length)) (by simp) hf
        simp only [List.nil_append, ht] at hrec
        rw [htext, Regexp.allMatches, hs]
        have h2 : ¬ (pos + (w ++ ['/']).length + 1 + name.length = pos) := by omega
        simp only [h2, if_false, List.map_cons, hrec, paramNames]

theorem paramNames_length_le (ps : List Piece) : (paramNames ps).length ≤ (patternOf ps).length := by
  induction ps with
  | nil => simp [paramNames]
  | cons p ps ih =>
    cases p with
    | lit text => simp only [paramNames, patternOf, List.length_append]; omega
    | param name value =>
      simp only [paramNames, patternOf, Piece.pattern, List.length_append, List.length_cons]
      omega

/-- Replacing the markers of a pattern of the route syntax puts the capture
group `([\w-_]+)` in place of every `:name`. -/
theorem ReplaceAllString_pieces (ps : List Piece) (hps : ∀ p ∈ ps, p.valid = true) :
    paramRegexp.ReplaceAllString (patternOf ps ++ "/?$".toList) "([\\w-_]+)".toList
      = replacedOf ps ++ "/?$".toList := by
  have h := replaceAll_pieces "?$".toList (by decide) ps hps []
    ((patternOf ps ++ "/?$".toList).length + 2) 0 0 (by simp)
    (by have := paramNames_length_le ps; simp only [List.length_append]; omega) (Nat.le_refl _)
  simpa [Regexp.ReplaceAllString] using h

theorem TrimPrefix_colon (name : List Char) : TrimPrefix (':' :: name) ":".toList = name := by
  simp [TrimPrefix]

/-- The keys extracted from a pattern of the route syntax are its parameter
names in declared order. -/
theorem extractParamKeys_pieces (ps : List Piece) (hps : ∀ p ∈ ps, p.valid = true) :
    extractParamKeys paramRegexp (patternOf ps ++ "/?$".toList) = paramNames ps := by
  have h := allMatches_pieces "?$".toList (by decide) ps hps []
    ((patternOf ps ++ "/?$".toList).length + 2) 0 none (by simp)
    (by have := paramNames_length_le ps; simp only [List.length_append]; omega)
  simp only [List.nil_append] at h
  unfold extractParamKeys Regexp.FindAllString
  have h' : (paramRegexp.allMatches ((patternOf ps ++ "/?$".toList).length + 2) 0
      (patternOf ps ++ "/?$".toList) none).map (fun m => m.text)
      = (paramNames ps).map (fun name => ':' :: name) := h
  rw [h', List.map_map]
  conv_rhs => rw [← List.map_id (paramNames ps)]
  apply List.map_congr_left
  intro name _
  exact TrimPrefix_colon name

/-! ## The matcher on paths of the route syntax -/

theorem tail_run (pos : Nat) (caps : Caps) (tl : List Char) (htl : tl = [] ∨ tl = ['/']) :
    (catList [Re.quest (.lit '/'), Re.eol]).run pos tl caps accept
      = some (pos + tl.length, [], caps) := by
  rcases htl with h | h <;> subst h <;> rfl

/-- The optional slash and the end anchor accept the empty text and a single
slash only. -/
theorem tail_run_sound (pos : Nat) (caps : Caps) (t : List Char) (r : RunResult)
    (h : (catList [Re.quest (.lit '/'), Re.eol]).run pos t caps accept = some r) :
    t = [] ∨ t = ['/'] := by
  cases t with
  | nil => exact Or.inl rfl
  | cons d ds =>
    right
    by_cases hd : d = '/'
    · subst hd
      cases ds with
      | nil => rfl
      | cons e es => simp [catList, Re.run, Atom.test_lit] at h
    · have hd' : (d == '/') = false := by simpa using hd
      simp [catList, Re.run, Atom.test_lit, hd'] at h

theorem pathOf_slash (ps : List Piece) (tl : List Char) (htl : tl = [] ∨ tl = ['/']) :
    ∀ c t1, pathOf ps ++ tl = c :: t1 → valueClass.test c = false := by
  intro c t1 h
  have hc : c = '/' := by
    cases ps with
    | nil =>
      rcases htl with h1 | h1 <;> subst h1
      · simp [pathOf] at h
      · simp only [pathOf, List.nil_append, List.cons.injEq] at h; exact h.1.symm
    | cons p ps =>
      cases p <;>
        · simp only [pathOf, Piece.path, List.cons_append, List.cons.injEq] at h
          exact h.1.symm
  rw [hc]
  exact valueClass_test_slash

theorem pieces_run (tl : List Char) (htl : tl = [] ∨ tl = ['/']) (ps : List Piece)
    (hps : ∀ p ∈ ps, p.valid = true) :
    ∀ (idx pos : Nat) (caps : Caps),
      (catList (reItems idx ps ++ [.quest (.lit '/'), .eol])).run pos (pathOf ps ++ tl) caps accept
        = some (pos + (pathOf ps ++ tl).length, [], fillCaps idx ps caps) := by
  induction ps with
  | nil =>
    intro idx pos caps
    simpa [reItems, pathOf, fillCaps] using tail_run pos caps tl htl
  | cons p ps ih =>
    intro idx pos caps
    have hps1 : ∀ q ∈ ps, q.valid = true := fun q hq => hps q (List.mem_cons_of_mem _ hq)
    have hp := hps p (List.mem_cons_self _ _)
    cases p with
    | lit text =>
      simp only [reItems, pathOf, Piece.path, fillCaps, List.append_assoc]
      rw [catList_append_run, litAtoms_run, ih hps1]
      simp only [List.length_append, List.length_cons]
      congr 2
      omega
    | param name value =>
      obtain ⟨_, _, hne, hvalue⟩ := Piece.valid_param hp
      cases value with
      | nil => exact absurd rfl hne
      | cons c value =>
        have hc : valueClass.test c = true := hvalue c (List.mem_cons_self _ _)
        have hv : ∀ d ∈ value, valueClass.test d = true := fun d hd =>
          hvalue d (List.mem_cons_of_mem _ hd)
        have hrec := ih hps1 (idx + 1) (pos + 1 + 1 + value.length)
          (caps.set idx (some (c :: value)))
        have htake : (c :: (value ++ (pathOf ps ++ tl))).take
            (pos + 1 + 1 + value.length - (pos + 1)) = c :: value := by
          have : pos + 1 + 1 + value.length - (pos + 1) = (c :: value).length := by
            simp only [List.length_cons]; omega
          rw [this, ← List.cons_append, List.take_left' rfl]
        have hg := starLoop_greedy valueClass
          (fun p r => (catList (reItems (idx + 1) ps ++ [.quest (.lit '/'), .eol])).run p r
            (caps.set (idx + 1 - 1)
              (some ((c :: (value ++ (pathOf ps ++ tl))).take (p - (pos + 1))))) accept)
          (pathOf ps ++ tl) (pathOf_slash ps tl htl) value (pos + 1 + 1) hv
          (by simp only [htake, Nat.add_sub_cancel]; rw [hrec]; rfl)
        simp only [reItems, pathOf, Piece.path, fillCaps, List.cons_append, List.append_assoc,
          catList, Re.run, Atom.test_lit, beq_self_eq_true, if_true, hc, List.append_eq]
        rw [hg]
        simp only [htake, Nat.add_sub_cancel]
        rw [hrec]
        simp only [List.length_append, List.length_cons]
        congr 2
        omega

theorem set_length_append {α : Type} (l r : List α) (a x : α) :
    (l ++ a :: r).set l.length x = l ++ x :: r := by
  induction l with
  | nil => rfl
  | cons b l ih => simp [ih]

theorem paramValues_length (ps : List Piece) :
    (paramValues ps).length = (paramNames ps).length := by
  induction ps with
  | nil => rfl
  | cons p ps ih => cases p <;> simp [paramValues, paramNames, ih]

theorem fillCaps_replicate (ps : List Piece) :
    ∀ (done : List (List Char)),
      fillCaps done.length ps
          (done.map some ++ List.replicate (paramValues ps).length none)
        = (done ++ paramValues ps).map some := by
  induction ps with
  | nil => intro done; simp [fillCaps, paramValues]
  | cons p ps ih =>
    intro done
    cases p with
    | lit text => simpa [fillCaps, paramValues] using ih done
    | param name value =>
      have h := ih (done ++ [value])
      simp only [List.length_append, List.length_singleton, List.map_append, List.map_cons,
        List.map_nil, List.append_assoc, List.singleton_append] at h
      simp only [fillCaps, paramValues, List.length_cons, List.replicate_succ, List.map_append,
        List.map_cons]
      have hset := set_length_append (done.map some)
        (List.replicate (paramValues ps).length none) none (some value)
      rw [List.length_map] at hset
      rw [hset, h]

/-- At any position a path that fits the pieces is matched up to its end, with
the parameter values as submatches. -/
theorem piecesRegexp_matchAt (tl : List Char) (htl : tl = [] ∨ tl = ['/']) (ps : List Piece)
    (hps : ∀ p ∈ ps, p.valid = true) (pos : Nat) :
    (piecesRegexp ps).matchAt pos (pathOf ps ++ tl)
      = some (pos + (pathOf ps ++ tl).length, [], (paramValues ps).map some) := by
  have h := pieces_run tl htl ps hps 0 pos (List.replicate (paramNames ps).length none)
  have hf := fillCaps_replicate ps []
  simp only [List.length_nil, List.map_nil, List.nil_append, paramValues_length] at hf
  rw [hf] at h
  exact h

theorem piecesRegexp_matchAt_nil (p : Piece) (ps : List Piece) (pos : Nat) :
    (piecesRegexp (p :: ps)).matchAt pos [] = none := by
  cases p <;> simp [Regexp.matchAt, piecesRegexp, reItems, litAtoms, catList, Re.run]

/-- A match at the search position itself is the one the search reports. -/
theorem search_hit (re : Regexp) (pos : Nat) (c : Char) (cs : List Char) (r : RunResult)
    (h : re.matchAt pos (c :: cs) = some r) :
    re.search [] pos (c :: cs)
      = some { start := pos, stop := r.1, skipped := [], text := (c :: cs).take (r.1 - pos),
               after := r.2.1, caps := r.2.2 } := by
  rw [Regexp.search, h]
  rfl

/-- A match at some later position makes the search succeed. -/
theorem search_isSome_append (re : Regexp) (rest : List Char) :
    ∀ (pre skipped : List Char) (pos : Nat), (re.matchAt (pos + pre.length) rest).isSome →
      (re.search skipped pos (pre ++ rest)).isSome := by
  intro pre
  induction pre with
  | nil =>
    intro skipped pos h
    simp only [List.length_nil, Nat.add_zero] at h
    cases rest with
    | nil =>
      simp only [List.append_nil, Regexp.search]
      cases hm : re.matchAt pos [] with
      | none => rw [hm] at h; simp at h
      | some r => simp
    | cons c cs =>
      simp only [List.nil_append, Regexp.search]
      cases hm : re.matchAt pos (c :: cs) with
      | none => rw [hm] at h; simp at h
      | some r => simp
  | cons c pre ih =>
    intro skipped pos h
    simp only [List.cons_append, Regexp.search]
    cases hm : re.matchAt pos (c :: (pre ++ rest)) with
    | some r => simp
    | none =>
      simp only
      apply ih
      have : pos + 1 + pre.length = pos + (c :: pre).length := by
        simp only [List.length_cons]; omega
      rw [this]; exact h

/-- A successful search found a position at which the match starts. -/
theorem search_sound (re : Regexp) :
    ∀ (text skipped : List Char) (pos : Nat), (re.search skipped pos text).isSome →
      ∃ pre rest, text = pre ++ rest ∧ (re.matchAt (pos + pre.length) rest).isSome := by
  intro text
  induction text with
  | nil =>
    intro skipped pos h
    refine ⟨[], [], rfl, ?_⟩
    simp only [Regexp.search, Option.isSome_map'] at h
    simpa using h
  | cons c cs ih =>
    intro skipped pos h
    cases hm : re.matchAt pos (c :: cs) with
    | some r => exact ⟨[], c :: cs, rfl, by simp [hm]⟩
    | none =>
      simp only [Regexp.search, hm] at h
      obtain ⟨pre, rest, hcs, hr⟩ := ih _ _ h
      refine ⟨c :: pre, rest, by simp [hcs], ?_⟩
      have : pos + (c :: pre).length = pos + 1 + pre.length := by
        simp only [List.length_cons]; omega
      rw [this]; exact hr

theorem pathOf_cons_ne_nil (p : Piece) (ps : List Piece) (tl : List Char) :
    ∃ t, pathOf (p :: ps) ++ tl = '/' :: t := by
  cases p <;> exact ⟨_, by simp only [pathOf, Piece.path, List.cons_append]; rfl⟩

/-- On a path that fits the pieces the matcher finds exactly one match: the
whole path, with the parameter values as submatches. -/
theorem FindAllStringSubmatch_pieces (tl : List Char) (htl : tl = [] ∨ tl = ['/'])
    (p : Piece) (ps : List Piece) (hps : ∀ q ∈ p :: ps, q.valid = true) :
    (piecesRegexp (p :: ps)).FindAllStringSubmatch (pathOf (p :: ps) ++ tl)
      = [(pathOf (p :: ps) ++ tl) :: paramValues (p :: ps)] := by
  obtain ⟨t, ht⟩ := pathOf_cons_ne_nil p ps tl
  have hm := piecesRegexp_matchAt tl htl (p :: ps) hps 0
  rw [ht] at hm
  have hs := search_hit _ 0 '/' t _ hm
  have hnil : (piecesRegexp (p :: ps)).search [] ('/' :: t).length [] = none := by
    simp [Regexp.search, piecesRegexp_matchAt_nil]
  unfold Regexp.FindAllStringSubmatch
  rw [ht]
  simp only [List.length_cons, Regexp.allMatches, hs, Nat.zero_add, Nat.sub_zero]
  simp only [Nat.add_eq_zero, one_ne_zero, and_false, if_false, List.length_cons] at hnil ⊢
  rw [hnil]
  have hid : ((fun c : Option (List Char) => c.getD []) ∘ some) = id := by
    funext x; rfl
  simp [List.take_length, hid]

/-! ## Go maps and parameter population -/

theorem mapGet_mapSet_self {κ ν : Type} [DecidableEq κ] (m : List (κ × ν)) (k : κ) (v : ν) :
    mapGet (mapSet m k v) k = some v := by
  induction m with
  | nil => simp [mapSet, mapGet]
  | cons kv m ih =>
    obtain ⟨k1, v1⟩ := kv
    by_cases h : k1 = k
    · simp [mapSet, mapGet, h]
    · simp [mapSet, mapGet, h, ih]

theorem mapGet_mapSet_ne {κ ν : Type} [DecidableEq κ] (m : List (κ × ν)) (k k2 : κ) (v : ν)
    (hne : k2 ≠ k) : mapGet (mapSet m k v) k2 = mapGet m k2 := by
  induction m with
  | nil => simp [mapSet, mapGet, Ne.symm hne]
  | cons kv m ih =>
    obtain ⟨k1, v1⟩ := kv
    by_cases h : k1 = k
    · subst h
      simp [mapSet, mapGet, Ne.symm hne]
    · by_cases h2 : k1 = k2
      · subst h2
        simp [mapSet, mapGet, h]
      · simp [mapSet, mapGet, h, h2, ih]

theorem mapGet_setAll_notin {κ ν : Type} [DecidableEq κ] (kvs : List (κ × ν)) :
    ∀ (m : List (κ × ν)) (k : κ), k ∉ kvs.map Prod.fst →
      mapGet (setAll m kvs) k = mapGet m k := by
  induction kvs with
  | nil => intro m k _; rfl
  | cons kv kvs ih =>
    intro m k hk
    simp only [List.map_cons, List.mem_cons, not_or] at hk
    simp only [setAll, List.foldl_cons]
    have h := ih (mapSet m kv.1 kv.2) k hk.2
    simp only [setAll] at h
    rw [h, mapGet_mapSet_ne _ _ _ _ hk.1]

/-- After writing pairs with distinct keys, every key reads its own value. -/
theorem mapGet_setAll {κ ν : Type} [DecidableEq κ] (kvs : List (κ × ν)) :
    ∀ (m : List (κ × ν)) (k : κ) (v : ν), (kvs.map Prod.fst).Nodup → (k, v) ∈ kvs →
      mapGet (setAll m kvs) k = some v := by
  induction kvs with
  | nil => intro m k v _ h; simp at h
  | cons kv kvs ih =>
    intro m k v hnd hmem
    simp only [List.map_cons, List.nodup_cons] at hnd
    rcases List.mem_cons.mp hmem with h | h
    · subst h
      have h1 := mapGet_setAll_notin kvs (mapSet m k v) k hnd.1
      simp only [setAll, List.foldl_cons] at h1 ⊢
      rw [h1, mapGet_mapSet_self]
    · have h1 := ih (mapSet m kv.1 kv.2) k v hnd.2 h
      simp only [setAll, List.foldl_cons] at h1 ⊢
      exact h1

/-- The inner loop of `populateParams` writes group `i` under key `i-1`. -/
theorem populateMatch_zip (gs : List (List Char)) :
    ∀ (pre ks : List (List Char)) (params : List (List Char × List Char)),
      gs.length ≤ ks.length →
      populateMatch (pre ++ ks) (pre.length + 1) gs params = some (setAll params (ks.zip gs)) := by
  induction gs with
  | nil => intro pre ks params _; simp [populateMatch, setAll]
  | cons g gs ih =>
    intro pre ks params hlen
    cases ks with
    | nil => simp at hlen
    | cons k ks =>
      have hget : (pre ++ k :: ks).get? (pre.length + 1 - 1) = some k := by
        rw [Nat.add_sub_cancel, List.get?_eq_getElem?,
          List.getElem?_append_right (Nat.le_refl _)]
        simp
      have h := ih (pre ++ [k]) ks (mapSet params k g)
        (by simp only [List.length_cons] at hlen; omega)
      simp only [List.append_assoc, List.singleton_append, List.length_append,
        List.length_singleton] at h
      rw [populateMatch, hget]
      simp only
      rw [h]
      simp [setAll]

theorem param_mem_zip (ps : List Piece) (name value : List Char)
    (h : Piece.param name value ∈ ps) :
    (name, value) ∈ (paramNames ps).zip (paramValues ps) := by
  induction ps with
  | nil => simp at h
  | cons p ps ih =>
    rcases List.mem_cons.mp h with h1 | h1
    · subst h1
      simp [paramNames, paramValues]
    · cases p with
      | lit text => simpa [paramNames, paramValues] using ih h1
      | param n v =>
        simp only [paramNames, paramValues, List.zip_cons_cons, List.mem_cons]
        exact Or.inr (ih h1)

/-- On a path that fits the pieces `populateParams` writes every parameter
value under its name. -/
theorem populateParams_pieces (tl : List Char) (htl : tl = [] ∨ tl = ['/'])
    (p : Piece) (ps : List Piece) (hps : ∀ q ∈ p :: ps, q.valid = true)
    (params : List (List Char × List Char)) :
    populateParams params (paramNames (p :: ps)) (pathOf (p :: ps) ++ tl) (piecesRegexp (p :: ps))
      = some (setAll params ((paramNames (p :: ps)).zip (paramValues (p :: ps)))) := by
  unfold populateParams
  rw [FindAllStringSubmatch_pieces tl htl p ps hps]
  have h := populateMatch_zip (paramValues (p :: ps)) [] (paramNames (p :: ps)) params
    (by rw [paramValues_length])
  simp only [List.nil_append, List.length_nil, Nat.zero_add] at h
  simp only [populateAll, List.drop_succ_cons, List.drop_zero, h, Option.some_bind]

/-! ## Submatch count -/

theorem starLoop_exists (a : Atom) (k : Nat → List Char → Option RunResult)
    (rest : List Char) (pos : Nat) (r : RunResult) (h : starLoop a k pos rest = some r) :
    ∃ p t, k p t = some r := by
  obtain ⟨w, t, _, _, hk⟩ := starLoop_sound a k rest pos r h
  exact ⟨_, t, hk⟩

/-- The matcher keeps the number of capture slots. -/
theorem run_caps_length (n : Nat) (re : Re) :
    ∀ (pos : Nat) (rest : List Char) (caps : Caps)
      (k : Nat → List Char → Caps → Option RunResult) (r : RunResult),
      (∀ p t c r1, c.length = n → k p t c = some r1 → r1.2.2.length = n) →
      caps.length = n → re.run pos rest caps k = some r → r.2.2.length = n := by
  induction re with
  | empty => intro pos rest caps k r hk hc h; exact hk _ _ _ _ hc h
  | atom a =>
    intro pos rest caps k r hk hc h
    cases rest with
    | nil => simp [Re.run] at h
    | cons c cs =>
      by_cases ht : a.test c = true
      · simp only [Re.run, ht, if_true] at h; exact hk _ _ _ _ hc h
      · simp [Re.run, ht] at h
  | star a =>
    intro pos rest caps k r hk hc h
    simp only [Re.run] at h
    obtain ⟨p, t, hpt⟩ := starLoop_exists _ _ _ _ _ h
    exact hk _ _ _ _ hc hpt
  | plus a =>
    intro pos rest caps k r hk hc h
    cases rest with
    | nil => simp [Re.run] at h
    | cons c cs =>
      by_cases ht : a.test c = true
      · simp only [Re.run, ht, if_true] at h
        obtain ⟨p, t, hpt⟩ := starLoop_exists _ _ _ _ _ h
        exact hk _ _ _ _ hc hpt
      · simp [Re.run, ht] at h
  | quest a =>
    intro pos rest caps k r hk hc h
    cases rest with
    | nil => simp only [Re.run] at h; exact hk _ _ _ _ hc h
    | cons c cs =>
      by_cases ht : a.test c = true
      · simp only [Re.run, ht, if_true] at h
        cases hk1 : k (pos + 1) cs caps with
        | none => rw [hk1] at h; exact hk _ _ _ _ hc h
        | some r1 =>
          rw [hk1] at h
          simp only [Option.some.injEq] at h
          subst h
          exact hk _ _ _ _ hc hk1
      · have ht' : a.test c = false := by simpa using ht
        simp only [Re.run, ht', Bool.false_eq_true, if_false] at h
        exact hk _ _ _ _ hc h
  | bol =>
    intro pos rest caps k r hk hc h
    by_cases hp : pos = 0
    · simp only [Re.run, hp, if_true] at h; exact hk _ _ _ _ hc h
    · simp [Re.run, hp] at h
  | eol =>
    intro pos rest caps k r hk hc h
    cases rest with
    | nil => simp only [Re.run] at h; exact hk _ _ _ _ hc h
    | cons c cs => simp [Re.run] at h
  | cat r1 r2 ih1 ih2 =>
    intro pos rest caps k r hk hc h
    simp only [Re.run] at h
    exact ih1 pos rest caps _ r (fun p t c r3 hc3 h3 => ih2 p t c k r3 hk hc3 h3) hc h
  | group idx r1 ih =>
    intro pos rest caps k r hk hc h
    simp only [Re.run] at h
    exact ih pos rest caps _ r
      (fun p t c r3 hc3 h3 => hk _ _ _ _ (by rw [List.length_set]; exact hc3) h3) hc h

theorem matchAt_caps_length (re : Regexp) (pos : Nat) (rest : List Char) (r : RunResult)
    (h : re.matchAt pos rest = some r) : r.2.2.length = re.numSubexp := by
  apply run_caps_length re.numSubexp re.prog pos rest _ _ r _ (by simp) h
  intro p t c r1 hc h1
  simp only [Option.some.injEq] at h1
  subst h1
  exact hc

theorem search_caps_length (re : Regexp) :
    ∀ (rest skipped : List Char) (pos : Nat) (m : Match),
      re.search skipped pos rest = some m → m.caps.length = re.numSubexp := by
  intro rest
  induction rest with
  | nil =>
    intro skipped pos m h
    simp only [Regexp.search, Option.map_eq_some'] at h
    obtain ⟨r, hr, hm⟩ := h
    subst hm
    exact matchAt_caps_length re pos [] r hr
  | cons c cs ih =>
    intro skipped pos m h
    cases hr : re.matchAt pos (c :: cs) with
    | some r =>
      simp only [Regexp.search, hr, Option.some.injEq] at h
      subst h
      exact matchAt_caps_length re pos _ r hr
    | none =>
      simp only [Regexp.search, hr] at h
      exact ih _ _ m h

/-- Every match of `allMatches` carries one submatch per capture group. -/
theorem allMatches_caps_length (re : Regexp) :
    ∀ (fuel pos : Nat) (rest : List Char) (prev : Option Nat),
      ∀ m ∈ re.allMatches fuel pos rest prev, m.caps.length = re.numSubexp := by
  intro fuel
  induction fuel with
  | zero => intro pos rest prev m hm; simp [Regexp.allMatches] at hm
  | succ f ih =>
    intro pos rest prev m hm
    rw [Regexp.allMatches] at hm
    cases hs : re.search [] pos rest with
    | none => rw [hs] at hm; simp at hm
    | some m1 =>
      have hm1 := search_caps_length re rest [] pos m1 hs
      rw [hs] at hm
      simp only at hm
      by_cases hstop : m1.stop = pos
      · simp only [hstop, if_true] at hm
        cases rest with
        | nil =>
          simp only at hm
          by_cases hp : prev = some m1.start
          · simp [hp] at hm
          · simp only [hp, if_false, List.mem_singleton] at hm
            rw [hm]; exact hm1
        | cons c cs =>
          simp only [List.mem_append] at hm
          rcases hm with hm | hm
          · by_cases hp : prev = some m1.start
            · simp [hp] at hm
            · simp only [hp, if_false, List.mem_singleton] at hm
              rw [hm]; exact hm1
          · exact ih _ _ _ m hm
      · simp only [hstop, if_false, List.mem_cons] at hm
        rcases hm with hm | hm
        · rw [hm]; exact hm1
        · exact ih _ _ _ m hm

theorem populateAll_nil_groups (keys : List (List Char))
    (params : List (List Char × List Char)) :
    ∀ (ms : List (List (List Char))), (∀ m ∈ ms, m.drop 1 = []) →
      populateAll keys ms params = some params := by
  intro ms
  induction ms with
  | nil => intro _; rfl
  | cons m ms ih =>
    intro h
    rw [populateAll, h m (List.mem_cons_self _ _)]
    simp only [populateMatch, Option.some_bind]
    exact ih (fun m1 hm1 => h m1 (List.mem_cons_of_mem _ hm1))

/-- A matcher without capture groups leaves the parameter map as it is. -/
theorem populateParams_no_groups (regex : Regexp) (hn : regex.numSubexp = 0)
    (params : List (List Char × List Char)) (keys : List (List Char)) (url : List Char) :
    populateParams params keys url regex = some params := by
  unfold populateParams Regexp.FindAllStringSubmatch
  apply populateAll_nil_groups
  intro m hm
  obtain ⟨m1, hm1, rfl⟩ := List.mem_map.mp hm
  have hl := allMatches_caps_length regex _ _ _ _ m1 hm1
  rw [hn] at hl
  simp [List.length_eq_zero.mp hl]

/-! ## Entries registered for literal patterns -/

theorem ReplaceAllString_literal (P : List Char) (hP : ∀ c ∈ P, isLiteralChar c = true) :
    paramRegexp.ReplaceAllString (P ++ "/?$".toList) "([\\w-_]+)".toList
      = P ++ "/?$".toList := by
  have h := replaceAll_pieces "?$".toList (by decide) [] (by simp) P
    ((P ++ "/?$".toList).length + 2) 0 0 (fun c hc => isLiteralChar_ne_colon c (hP c hc))
    (by simp [paramNames]) (Nat.le_refl _)
  simpa [Regexp.ReplaceAllString, patternOf, replacedOf] using h

theorem nodeRegex_literal {T : Type} (e : HandlerNode T) (P : List Char)
    (hP : ∀ c ∈ P, isLiteralChar c = true) (he : e.pattern.String = P ++ "/?$".toList) :
    nodeRegex e = some (literalRegexp P) := by
  unfold nodeRegex
  rw [he, ReplaceAllString_literal P hP, MustCompile_literal P hP]

theorem literalRegexp_matchAt (P : List Char) (pos : Nat) :
    (literalRegexp P).matchAt pos P = some (pos + P.length, [], []) := by
  have h := litAtoms_run P [] pos [] (fun p t c =>
    (catList [Re.quest (.lit '/'), Re.eol]).run p t c accept)
  rw [List.append_nil] at h
  simp only [Regexp.matchAt, literalRegexp, List.replicate]
  rw [catList_append_run]
  exact h.trans (tail_run _ _ [] (Or.inl rfl))

/-- An entry registered for a literal pattern structurally matches the pattern
text itself. -/
theorem structMatch_literal {T : Type} (e : HandlerNode T) (P : List Char)
    (hP : ∀ c ∈ P, isLiteralChar c = true) (he : e.pattern.String = P ++ "/?$".toList) :
    structMatch e P = some true := by
  unfold structMatch
  rw [nodeRegex_literal e P hP he]
  have h := search_isSome_append (literalRegexp P) P [] [] 0
    (by rw [literalRegexp_matchAt]; rfl)
  simpa [Regexp.MatchString] using h

theorem nodeParams_literal {T : Type} (e : HandlerNode T) (P : List Char)
    (hP : ∀ c ∈ P, isLiteralChar c = true) (he : e.pattern.String = P ++ "/?$".toList)
    (req : Request T) : nodeParams e req = some req.Params := by
  unfold nodeParams
  rw [nodeRegex_literal e P hP he]
  exact populateParams_no_groups _ rfl _ _ _

/-- C3, amended: for a literal pattern `P` other than `/` and a method `M`, in
a router in which the entry registered for `P`, `M` and `h` is the first entry
that structurally matches `P`, a request entering the router with path `P` and
method `M` is handled by `h`, on the request itself with the consumed prefix
recorded. -/
theorem Handle_literal {T : Type} (r : Router T) (req : Request T) (res : Response)
    (pre post : List (HandlerNode T)) (e : HandlerNode T) (h : Handler T)
    (P : List Char) (M : String)
    (hroot : r.root.pattern = rootRegexp)
    (hnext : r.next = pre ++ e :: post)
    (hpre : ∀ n ∈ pre, structMatch n P = some false)
    (he : registeredAs e M P h)
    (hP : ∀ c ∈ P, isLiteralChar c = true) (hne : P ≠ "/".toList)
    (htop : req.rootPattern = []) (hpath : req.URL.Path = P) (hmethod : req.Method = M) :
    r.Handle req res = h (req.matched e req.Params) res := by
  obtain ⟨hpat, hm, hh⟩ := he
  have htext : req.rootPattern ++ req.URL.Path = P := by rw [htop, hpath]; rfl
  exact Handle_first_hit_invokes r req res pre post e h req.Params hroot
    (by rw [hpath]; exact hne) (by rw [htext]; exact hne) hnext (by rw [htext]; exact hpre)
    (by rw [htext]; exact structMatch_literal e P hP hpat) (by rw [hm, hmethod])
    (nodeParams_literal e P hP hpat req) hh

/-- C4, amended: for a literal pattern `P` other than `/` registered for
method `M`, in a router in which that entry is the first entry that
structurally matches `P`, a request entering the router with path `P` and a
method other than `M` is answered 405, not 404, and no handler is called. -/
theorem Handle_literal_wrong_method {T : Type} (r : Router T) (req : Request T)
    (res : Response) (pre post : List (HandlerNode T)) (e : HandlerNode T) (h : Handler T)
    (P : List Char) (M : String)
    (hroot : r.root.pattern = rootRegexp)
    (hnext : r.next = pre ++ e :: post)
    (hpre : ∀ n ∈ pre, structMatch n P = some false)
    (he : registeredAs e M P h)
    (hP : ∀ c ∈ P, isLiteralChar c = true) (hne : P ≠ "/".toList)
    (htop : req.rootPattern = []) (hpath : req.URL.Path = P) (hmethod : req.Method ≠ M) :
    r.Handle req res = some (res.WriteText StatusMethodNotAllowed "") ∧
      (res.WriteText StatusMethodNotAllowed "").StatusCode = 405 ∧
      (res.WriteText StatusMethodNotAllowed "").StatusCode ≠ 404 := by
  obtain ⟨hpat, hm, _⟩ := he
  have htext : req.rootPattern ++ req.URL.Path = P := by rw [htop, hpath]; rfl
  exact ⟨Handle_first_hit_rejects r req res pre post e hroot (by rw [hpath]; exact hne)
      (by rw [htext]; exact hne) hnext (by rw [htext]; exact hpre)
      (by rw [htext]; exact structMatch_literal e P hP hpat)
      (by rw [hm]; exact fun hc => hmethod hc.symm),
    rfl, by show (405 : Int) ≠ 404; decide⟩

/-- C3 as stated fails: `/health` is registered for POST with a handler, yet a
POST request for `/health` is answered 405 and that handler is not called,
because the entry registered before it for GET matches the same path. -/
theorem Handle_literal_counterexample :
    (∃ e ∈ healthRouter.next, registeredAs e "POST" "/health".toList
        (recordingHandler "POST /health")) ∧
    healthRouter.Handle (plainRequest "POST" "/health".toList) emptyResponse
      = some (emptyResponse.WriteText StatusMethodNotAllowed "") ∧
    ∀ req : Request Unit,
      healthRouter.Handle (plainRequest "POST" "/health".toList) emptyResponse
        ≠ recordingHandler "POST /health" req emptyResponse := by
  refine ⟨⟨healthRouter.next.get ⟨1, by decide⟩, List.get_mem _ _ _, rfl, rfl, rfl⟩,
    by decide, ?_⟩
  intro req
  have h : healthRouter.Handle (plainRequest "POST" "/health".toList) emptyResponse
      = some (emptyResponse.WriteText StatusMethodNotAllowed "") := by decide
  rw [h]
  show some (emptyResponse.WriteText StatusMethodNotAllowed "")
    ≠ some (emptyResponse.Println "POST /health")
  decide

/-- C4 as stated fails: `/health` is registered for POST, yet a GET request for
`/health`, a method other than POST, is not answered 405: the handler of the
entry registered before it for GET is called. -/
theorem Handle_literal_wrong_method_counterexample :
    (∃ e ∈ healthRouter.next, registeredAs e "POST" "/health".toList
        (recordingHandler "POST /health")) ∧
    "GET" ≠ "POST" ∧
    healthRouter.Handle (plainRequest "GET" "/health".toList) emptyResponse
      = some (emptyResponse.Println "GET /health") ∧
    healthRouter.Handle (plainRequest "GET" "/health".toList) emptyResponse
      ≠ some (emptyResponse.WriteText StatusMethodNotAllowed "") := by
  refine ⟨⟨healthRouter.next.get ⟨1, by decide⟩, List.get_mem _ _ _, rfl, rfl, rfl⟩,
    by decide, by decide, by decide⟩

theorem Handle_literal_witness :
    healthRouter.root.pattern = rootRegexp ∧
    registeredAs (healthRouter.next.get ⟨0, by decide⟩) "GET" "/health".toList
      (recordingHandler "GET /health") ∧
    (∀ c ∈ "/health".toList, isLiteralChar c = true) ∧
    "/health".toList ≠ "/".toList ∧
    healthRouter.Handle (plainRequest "GET" "/health".toList) emptyResponse
      = some (emptyResponse.Println "GET /health") :=
  ⟨rfl, ⟨rfl, rfl, rfl⟩, by decide, by decide,
    Handle_literal healthRouter (plainRequest "GET" "/health".toList) emptyResponse
      [] (healthRouter.next.drop 1) (healthRouter.next.get ⟨0, by decide⟩)
      (recordingHandler "GET /health") "/health".toList "GET"
      rfl rfl (by simp) ⟨rfl, rfl, rfl⟩ (by decide) (by decide) rfl rfl rfl⟩

theorem Handle_literal_wrong_method_witness :
    healthRouter.root.pattern = rootRegexp ∧
    registeredAs (healthRouter.next.get ⟨0, by decide⟩) "GET" "/health".toList
      (recordingHandler "GET /health") ∧
    (∀ c ∈ "/health".toList, isLiteralChar c = true) ∧
    "/health".toList ≠ "/".toList ∧
    (plainRequest "DELETE" "/health".toList).Method ≠ "GET" ∧
    healthRouter.Handle (plainRequest "DELETE" "/health".toList) emptyResponse
      = some (emptyResponse.WriteText StatusMethodNotAllowed "") :=
  ⟨rfl, ⟨rfl, rfl, rfl⟩, by decide, by decide, by decide,
    (Handle_literal_wrong_method healthRouter (plainRequest "DELETE" "/health".toList)
      emptyResponse [] (healthRouter.next.drop 1) (healthRouter.next.get ⟨0, by decide⟩)
      (recordingHandler "GET /health") "/health".toList "GET"
      rfl rfl (by simp) ⟨rfl, rfl, rfl⟩ (by decide) (by decide) rfl rfl (by decide)).1⟩

/-! ## Entries registered for patterns with parameters -/

theorem nodeRegex_pieces {T : Type} (e : HandlerNode T) (ps : List Piece)
    (hps : ∀ p ∈ ps, p.valid = true)
    (he : e.pattern.String = patternOf ps ++ "/?$".toList) :
    nodeRegex e = some (piecesRegexp ps) := by
  unfold nodeRegex
  rw [he, ReplaceAllString_pieces ps hps, MustCompile_pieces ps hps]

/-- An entry registered for a pattern structurally matches every path that
fits the pattern segment by segment, with or without a trailing slash. -/
theorem structMatch_pieces {T : Type} (e : HandlerNode T) (ps : List Piece)
    (hps : ∀ p ∈ ps, p.valid = true)
    (he : e.pattern.String = patternOf ps ++ "/?$".toList)
    (tl : List Char) (htl : tl = [] ∨ tl = ['/']) :
    structMatch e (pathOf ps ++ tl) = some true := by
  unfold structMatch
  rw [nodeRegex_pieces e ps hps he]
  have h := search_isSome_append (piecesRegexp ps) (pathOf ps ++ tl) [] [] 0
    (by rw [piecesRegexp_matchAt tl htl ps hps]; rfl)
  simpa [Regexp.MatchString] using h

theorem nodeParams_pieces {T : Type} (e : HandlerNode T) (p : Piece) (ps : List Piece)
    (hps : ∀ q ∈ p :: ps, q.valid = true)
    (he : e.pattern.String = patternOf (p :: ps) ++ "/?$".toList)
    (tl : List Char) (htl : tl = [] ∨ tl = ['/'])
    (req : Request T) (hpath : req.URL.Path = pathOf (p :: ps) ++ tl) :
    nodeParams e req
      = some (setAll req.Params ((paramNames (p :: ps)).zip (paramValues (p :: ps)))) := by
  unfold nodeParams
  rw [nodeRegex_pieces e (p :: ps) hps he, Option.some_bind, he,
    extractParamKeys_pieces (p :: ps) hps, hpath]
  exact populateParams_pieces tl htl p ps hps req.Params

theorem zip_names_values_fst (ps : List Piece) :
    ((paramNames ps).zip (paramValues ps)).map Prod.fst = paramNames ps := by
  apply List.map_fst_zip
  rw [paramValues_length]

/-- C5, amended: for a pattern of literal segments, free of regexp syntax and
of `:`, and distinctly named `:name` segments registered with `Get`, in a
router in which that entry is the first entry that structurally matches the
request path, and a request entering the router whose path fits the pattern
segment by segment, with or without a trailing slash, the handler is called on
the request whose parameter map received, in declared order, each parameter
name with the path segment at its position; reading a parameter name with
`GetParam` then returns that segment, whatever the default. -/
theorem Handle_params {T : Type} (r : Router T) (req : Request T) (res : Response)
    (pre post : List (HandlerNode T)) (e : HandlerNode T) (h : Handler T)
    (pieces : List Piece)
    (hroot : r.root.pattern = rootRegexp)
    (hnext : r.next = pre ++ e :: post)
    (hpre : ∀ n ∈ pre, structMatch n req.URL.Path = some false)
    (he : registeredAs e "GET" (patternOf pieces) h)
    (hpieces : pieces ≠ [])
    (hvalid : ∀ q ∈ pieces, q.valid = true)
    (hnames : (paramNames pieces).Nodup)
    (htop : req.rootPattern = []) (hmethod : req.Method = "GET")
    (hpath : req.URL.Path = pathOf pieces ∨ req.URL.Path = pathOf pieces ++ "/".toList)
    (hne : req.URL.Path ≠ "/".toList) :
    r.Handle req res
        = h (req.matched e
              (setAll req.Params ((paramNames pieces).zip (paramValues pieces)))) res ∧
      ∀ name value, Piece.param name value ∈ pieces → ∀ d,
        (req.matched e
          (setAll req.Params ((paramNames pieces).zip (paramValues pieces)))).GetParam name d
          = value := by
  obtain ⟨hpat, hm, hh⟩ := he
  cases pieces with
  | nil => exact absurd rfl hpieces
  | cons p ps =>
    have htl : ∃ tl, (tl = [] ∨ tl = ['/']) ∧ req.URL.Path = pathOf (p :: ps) ++ tl := by
      rcases hpath with h1 | h1
      · exact ⟨[], Or.inl rfl, by rw [h1, List.append_nil]⟩
      · exact ⟨['/'], Or.inr rfl, h1⟩
    obtain ⟨tl, htl, hp⟩ := htl
    have htext : req.rootPattern ++ req.URL.Path = req.URL.Path := by rw [htop]; rfl
    refine ⟨Handle_first_hit_invokes r req res pre post e h _ hroot hne
      (by rw [htext]; exact hne) hnext (by rw [htext]; exact hpre)
      (by rw [htext, hp]; exact structMatch_pieces e (p :: ps) hvalid hpat tl htl)
      (by rw [hm, hmethod]) (nodeParams_pieces e p ps hvalid hpat tl htl req hp) hh, ?_⟩
    intro name value hmem d
    have hget := mapGet_setAll ((paramNames (p :: ps)).zip (paramValues (p :: ps)))
      req.Params name value (by rw [zip_names_values_fst]; exact hnames)
      (param_mem_zip _ name value hmem)
    simp only [Request.GetParam, Request.matched, hget]

theorem Handle_params_witness :
    paramsRouter.root.pattern = rootRegexp ∧
    registeredAs (paramsRouter.next.get ⟨0, by decide⟩) "GET"
      (patternOf [.lit "api".toList, .param "id".toList "noobmaster69".toList]) HandleFunc ∧
    patternOf [.lit "api".toList, .param "id".toList "noobmaster69".toList]
      = "/api/:id".toList ∧
    pathOf [.lit "api".toList, .param "id".toList "noobmaster69".toList]
      = "/api/noobmaster69".toList ∧
    (∀ q ∈ [Piece.lit "api".toList, .param "id".toList "noobmaster69".toList],
      q.valid = true) ∧
    ((plainRequest "GET" "/api/noobmaster69".toList).matched
        (paramsRouter.next.get ⟨0, by decide⟩)
        (setAll [] [("id".toList, "noobmaster69".toList)])).GetParam "id".toList "0".toList
      = "noobmaster69".toList ∧
    paramsRouter.Handle (plainRequest "GET" "/api/noobmaster69".toList) emptyResponse
      = some (emptyResponse.Println "noobmaster69") :=
  ⟨rfl, ⟨rfl, rfl, rfl⟩, rfl, rfl, by decide,
    (Handle_params paramsRouter (plainRequest "GET" "/api/noobmaster69".toList) emptyResponse
      [] [] (paramsRouter.next.get ⟨0, by decide⟩) HandleFunc
      [.lit "api".toList, .param "id".toList "noobmaster69".toList]
      rfl rfl (by simp) ⟨rfl, rfl, rfl⟩ (by simp) (by decide) (by decide) rfl rfl
      (Or.inl rfl) (by decide)).2 "id".toList "noobmaster69".toList (by simp) "0".toList,
    (Handle_params paramsRouter (plainRequest "GET" "/api/noobmaster69".toList) emptyResponse
      [] [] (paramsRouter.next.get ⟨0, by decide⟩) HandleFunc
      [.lit "api".toList, .param "id".toList "noobmaster69".toList]
      rfl rfl (by simp) ⟨rfl, rfl, rfl⟩ (by simp) (by decide) (by decide) rfl rfl
      (Or.inl rfl) (by decide)).1⟩

/-! ## Registration -/

theorem plain_step (c : Char) (hc : isMeta c = false) (cur : List Re)
    (stack : List (Nat × List Re)) (ncap : Nat) :
    step ⟨cur, stack, ncap, .normal⟩ c = some ⟨.atom (.lit c) :: cur, stack, ncap, .normal⟩ := by
  simp only [isMeta, Bool.or_eq_false_iff, beq_eq_false_iff_ne, ne_eq] at hc
  obtain ⟨⟨⟨⟨⟨⟨⟨⟨⟨⟨⟨⟨⟨h1, h2⟩, h3⟩, h4⟩, h5⟩, h6⟩, h7⟩, h8⟩, h9⟩, h10⟩, h11⟩, h12⟩, h13⟩, h14⟩ := hc
  simp [step, stepNormal, h1, h2, h3, h4, h5, h6, h7, h8, h9, h10, h11, h12, h13, h14]

theorem parseFrom_plain (w : List Char) (hw : ∀ c ∈ w, isMeta c = false) :
    ∀ (cur : List Re) (stack : List (Nat × List Re)) (ncap : Nat) (rest : List Char),
      parseFrom ⟨cur, stack, ncap, .normal⟩ (w ++ rest)
        = parseFrom ⟨(litAtoms w).reverse ++ cur, stack, ncap, .normal⟩ rest := by
  induction w with
  | nil => intro cur stack ncap rest; simp [litAtoms]
  | cons c w ih =>
    intro cur stack ncap rest
    have hc := hw c (List.mem_cons_self _ _)
    have hw1 : ∀ d ∈ w, isMeta d = false := fun d hd => hw d (List.mem_cons_of_mem _ hd)
    rw [List.cons_append, parseFrom, plain_step c hc, Option.some_bind, ih hw1]
    simp [litAtoms]

/-- A pattern without regexp syntax compiles, as registered, to its characters
taken literally, parameter markers included. -/
theorem MustCompile_plain (P : List Char) (hP : ∀ c ∈ P, isMeta c = false) :
    MustCompile (P ++ "/?$".toList) = some (literalRegexp P) := by
  unfold MustCompile
  rw [parseFrom_plain P hP, parseFrom_tail]
  simp [literalRegexp, List.reverse_append]

/-- Registering a pattern other than `/` that is free of regexp syntax appends
one entry and changes nothing else. -/
theorem register_plain {T : Type} (M : String) (r : Router T) (P : List Char) (h : Handler T)
    (hroot : r.root.pattern = rootRegexp) (hP : ∀ c ∈ P, isMeta c = false)
    (hne : P ≠ "/".toList) :
    Router.register M r P h
      = some { r with next := r.next ++ [{ pattern := literalRegexp P, method := M,
                                           handler := some h }] } := by
  have hm : r.root.pattern.MatchString P = false := by
    rw [hroot, rootRegexp_MatchString]
    simpa using hne
  unfold Router.register
  rw [hm, MustCompile_plain P hP]
  simp

/-! ## The single pattern `/api/:id` -/

/-- The matcher of `/api/:id` succeeds only on `/api/` followed by a non-empty
run of value characters and at most one slash. -/
theorem api_matchAt_sound (pos : Nat) (rest : List Char) (r : RunResult)
    (h : (piecesRegexp [.lit "api".toList, .param "id".toList "x".toList]).matchAt pos rest
      = some r) :
    ∃ seg tl, rest = "/api/".toList ++ seg ++ tl ∧ seg ≠ [] ∧
      (∀ c ∈ seg, valueClass.test c = true) ∧ (tl = [] ∨ tl = ['/']) := by
  have hprog : (piecesRegexp [.lit "api".toList, .param "id".toList "x".toList]).prog
      = catList (litAtoms "/api/".toList
          ++ ([.group 1 (catList [.plus valueClass])] ++ [.quest (.lit '/'), .eol])) := rfl
  unfold Regexp.matchAt at h
  rw [hprog, catList_append_run] at h
  obtain ⟨t, hrest, hk⟩ := litAtoms_run_sound _ _ _ _ _ _ h
  cases t with
  | nil => simp [catList, Re.run] at hk
  | cons c cs =>
    by_cases hc : valueClass.test c = true
    · simp only [List.singleton_append, catList, Re.run, hc, if_true] at hk
      obtain ⟨w, t2, hcs, hw, hk2⟩ := starLoop_sound _ _ _ _ _ hk
      have htl := tail_run_sound _ _ t2 r hk2
      refine ⟨c :: w, t2, ?_, by simp, ?_, htl⟩
      · rw [hrest, hcs]; simp
      · intro d hd
        rcases List.mem_cons.mp hd with hd | hd
        · rw [hd]; exact hc
        · exact hw d hd
    · have hc' : valueClass.test c = false := by simpa using hc
      simp [catList, Re.run, hc'] at hk

/-- C8, amended: on a router whose only registration is `Get("/api/:id", h)`,
a request entering the router whose path is not `/` and does not end in
`/api/<segment>` or `/api/<segment>/`, the segment a non-empty run of word
characters, hyphens and underscores, is answered 404 and `h` is not called. -/
theorem Handle_api_id_not_found {T : Type} (h : Handler T) (r : Router T) (req : Request T)
    (res : Response)
    (hr : (NewRouter T).bind (fun r0 => r0.Get "/api/:id".toList h) = some r)
    (htop : req.rootPattern = [])
    (hpath : req.URL.Path ≠ "/".toList)
    (hform : ∀ pre seg, seg ≠ [] → (∀ c ∈ seg, valueClass.test c = true) →
      req.URL.Path ≠ pre ++ "/api/".toList ++ seg ∧
      req.URL.Path ≠ pre ++ "/api/".toList ++ seg ++ "/".toList) :
    r.Handle req res
        = some ((res.WriteText StatusNotFound "").Println
            "No routes found. Request reached end of the chain.") ∧
      ((res.WriteText StatusNotFound "").Println
            "No routes found. Request reached end of the chain.").StatusCode = 404 := by
  rw [NewRouter_eq, Option.some_bind, Router.Get,
    register_plain "GET" _ "/api/:id".toList h rfl (by decide) (by decide)] at hr
  simp only [Option.some.injEq] at hr
  subst hr
  have htext : req.rootPattern ++ req.URL.Path = req.URL.Path := by rw [htop]; rfl
  refine ⟨?_, rfl⟩
  apply Handle_no_hit _ req res rfl hpath (by rw [htext]; exact hpath)
  intro e he
  simp only [List.nil_append, List.mem_singleton] at he
  subst he
  rw [htext]
  unfold structMatch
  rw [nodeRegex_pieces ⟨literalRegexp "/api/:id".toList, "GET", some h⟩
    [.lit "api".toList, .param "id".toList "x".toList] (by decide) rfl]
  simp only [Option.map_some', Option.some.injEq, Regexp.MatchString]
  cases hs : (piecesRegexp [.lit "api".toList, .param "id".toList "x".toList]).search [] 0
      req.URL.Path with
  | none => rfl
  | some m =>
    exfalso
    obtain ⟨pre, rest, hsplit, hm⟩ := search_sound _ req.URL.Path [] 0 (by rw [hs]; rfl)
    cases hr : (piecesRegexp [.lit "api".toList, .param "id".toList "x".toList]).matchAt
        (0 + pre.length) rest with
    | none => rw [hr] at hm; simp at hm
    | some r1 =>
      obtain ⟨seg, tl, hrest, hne, hseg, htl⟩ := api_matchAt_sound _ _ _ hr
      have hf := hform pre seg hne hseg
      rcases htl with htl | htl
      · apply hf.1
        rw [hsplit, hrest, htl]
        simp
      · apply hf.2
        rw [hsplit, hrest, htl]
        simp

/-- C8 as stated fails: on the router whose only registration is
`Get("/api/:id", HandleFunc)`, the GET request for `/x/api/5`, a path with an
extra leading segment, is not answered 404: the handler is called with
`id = 5`. -/
theorem Handle_api_id_counterexample :
    (NewRouter Unit).bind (fun r0 => r0.Get "/api/:id".toList HandleFunc) = some paramsRouter ∧
    paramsRouter.Handle (plainRequest "GET" "/x/api/5".toList) emptyResponse
      = some (emptyResponse.Println "5") ∧
    (emptyResponse.Println "5").StatusCode ≠ 404 := by
  refine ⟨rfl, by decide, by decide⟩

theorem Handle_api_id_not_found_witness :
    (NewRouter Unit).bind (fun r0 => r0.Get "/api/:id".toList HandleFunc) = some paramsRouter ∧
    (plainRequest "GET" "/a".toList).URL.Path ≠ "/".toList ∧
    paramsRouter.Handle (plainRequest "GET" "/a".toList) emptyResponse
      = some ((emptyResponse.WriteText StatusNotFound "").Println
          "No routes found. Request reached end of the chain.") :=
  ⟨rfl, by decide,
    (Handle_api_id_not_found HandleFunc paramsRouter (plainRequest "GET" "/a".toList)
      emptyResponse rfl rfl (by decide)
      (by
        intro pre seg hne _
        constructor <;>
        · intro hc
          have hl := congrArg List.length hc
          cases seg with
          | nil => exact hne rfl
          | cons c cs =>
            simp [plainRequest] at hl
            omega)).1⟩

/-! ## Registration keeps the root pattern -/

theorem register_root_pattern {T : Type} (M : String) (r r1 : Router T) (P : List Char)
    (h : Handler T) (hr : Router.register M r P h = some r1) :
    r1.root.pattern = r.root.pattern := by
  unfold Router.register at hr
  by_cases hc : r.root.pattern.MatchString P = true ∧ r.root.handler.isNone = true
  · rw [if_pos hc] at hr
    simp only [Option.some.injEq] at hr
    rw [← hr]
  · rw [if_neg hc] at hr
    cases hm : MustCompile (P ++ "/?$".toList) with
    | none => rw [hm] at hr; simp at hr
    | some regex =>
      rw [hm] at hr
      simp only [Option.map_some', Option.some.injEq] at hr
      rw [← hr]

theorem SubRoute_root_pattern {T : Type} (r r1 : Router T) (P : List Char)
    (h : Handler T) (hr : r.SubRoute P h = some r1) :
    r1.root.pattern = r.root.pattern := by
  unfold Router.SubRoute at hr
  cases hm : MustCompile ("^".toList ++ P) with
  | none => rw [hm] at hr; simp at hr
  | some regex =>
    rw [hm] at hr
    simp only [Option.map_some', Option.some.injEq] at hr
    rw [← hr]

/-! ## Request and response accessors -/

/-- When the encoding fails, `WriteJson` ends with the status code it was
given. -/
theorem WriteJson_error_status {α : Type} (Marshal : α → Except String String) (r : Response)
    (c : Int) (object : α) (err : String) (h : Marshal object = .error err) :
    (r.WriteJson Marshal c object).StatusCode = c := by
  simp [Response.WriteJson, h, Response.Write, Response.SetStatus]

/-- C11: for a value whose encoding fails, `WriteJson(200, value)` leaves the
status code 200, not 500: the status 500 set on the error is overwritten by the
status code given; the error text is logged and the body stays empty. -/
theorem WriteJson_failure_keeps_status :
    failingMarshal () = .error "json: unsupported type: chan int" ∧
    (emptyResponse.WriteJson failingMarshal 200 ()).StatusCode = 200 ∧
    (emptyResponse.WriteJson failingMarshal 200 ()).StatusCode ≠ 500 ∧
    (emptyResponse.WriteJson failingMarshal 200 ()).Logger
      = ["json: unsupported type: chan int"] ∧
    (emptyResponse.WriteJson failingMarshal 200 ()).Body = "" := by
  refine ⟨rfl, ?_, ?_, ?_, ?_⟩ <;> decide

/-- C15: `GetParam(k, d)` returns the value stored under `k` when the parameter
map holds `k`, and `d` when it does not, in particular on the empty map, which
is also how a nil map reads. -/
theorem GetParam_spec {T : Type} (req : Request T) (k d : List Char) :
    (∀ v, mapGet req.Params k = some v → req.GetParam k d = v) ∧
    (mapGet req.Params k = none → req.GetParam k d = d) ∧
    (req.Params = [] → req.GetParam k d = d) := by
  refine ⟨fun v h => ?_, fun h => ?_, fun h => ?_⟩
  · simp [Request.GetParam, h]
  · simp [Request.GetParam, h]
  · simp [Request.GetParam, h, mapGet]

theorem GetParam_spec_witness :
    mapGet ({ plainRequest "GET" "/api/5".toList with
        Params := [("id".toList, "5".toList)] } : Request Unit).Params "id".toList
      = some "5".toList ∧
    ({ plainRequest "GET" "/api/5".toList with
        Params := [("id".toList, "5".toList)] } : Request Unit).GetParam "id".toList "0".toList
      = "5".toList ∧
    mapGet ({ plainRequest "GET" "/api/5".toList with
        Params := [("id".toList, "5".toList)] } : Request Unit).Params "name".toList = none ∧
    ({ plainRequest "GET" "/api/5".toList with
        Params := [("id".toList, "5".toList)] } : Request Unit).GetParam "name".toList "0".toList
      = "0".toList ∧
    (plainRequest "GET" "/api/5".toList).GetParam "id".toList "0".toList = "0".toList :=
  ⟨by decide,
    (GetParam_spec ({ plainRequest "GET" "/api/5".toList with
        Params := [("id".toList, "5".toList)] } : Request Unit) "id".toList "0".toList).1
      "5".toList (by decide),
    by decide,
    (GetParam_spec ({ plainRequest "GET" "/api/5".toList with
        Params := [("id".toList, "5".toList)] } : Request Unit) "name".toList "0".toList).2.1
      (by decide),
    (GetParam_spec (plainRequest "GET" "/api/5".toList) "id".toList "0".toList).2.2 rfl⟩

/-- C16, amended: after `WriteText(c, s)` the status code is `c`, the
`Content-Type` header is exactly `["text/plain"]`, the body is the previous
body followed by `s`, which is `s` itself when the body was empty, and every
other header is unchanged. -/
theorem WriteText_spec (r : Response) (c : Int) (s : String) :
    (r.WriteText c s).StatusCode = c ∧
    mapGet (r.WriteText c s).Header "Content-Type" = some ["text/plain"] ∧
    (r.WriteText c s).Body = r.Body ++ s ∧
    (r.Body = "" → (r.WriteText c s).Body = s) ∧
    (∀ k, k ≠ "Content-Type" → mapGet (r.WriteText c s).Header k = mapGet r.Header k) ∧
    (r.WriteText c s).Logger = r.Logger := by
  refine ⟨rfl, ?_, rfl, ?_, ?_, rfl⟩
  · exact mapGet_mapSet_self r.Header "Content-Type" ["text/plain"]
  · intro h
    show r.Body ++ s = s
    rw [h]
    exact String.empty_append s
  · intro k hk
    exact mapGet_mapSet_ne r.Header "Content-Type" k ["text/plain"] hk

theorem WriteText_spec_witness :
    emptyResponse.Body = "" ∧
    (emptyResponse.WriteText 200 "hello").Body = "hello" ∧
    "X-Trace" ≠ "Content-Type" ∧
    mapGet (startedResponse.WriteText 200 "b").Header "X-Trace"
      = mapGet startedResponse.Header "X-Trace" :=
  ⟨rfl, (WriteText_spec emptyResponse 200 "hello").2.2.2.1 rfl, by decide,
    (WriteText_spec startedResponse 200 "b").2.2.2.2.1 "X-Trace" (by decide)⟩

/-- C16 as stated fails: on a response whose body already holds `a`,
`WriteText(200, "b")` leaves the body `ab`, not `b`. -/
theorem WriteText_counterexample :
    startedResponse.Body = "a" ∧
    (startedResponse.WriteText 200 "b").Body = "ab" ∧
    (startedResponse.WriteText 200 "b").Body ≠ "b" := by
  decide

/-- C17: for a request whose body stream yields `b`, the request that
`LoggingMiddleware(h)` passes to `h` has a body that yields `b` from its
start, and the same URL, method, headers, parameters, context and consumed
prefix; `h` runs on it once, after the request log and before the response
log. -/
theorem LoggingMiddleware_restores_body {T : Type} (fmt : LogFormat T) (h : Handler T)
    (req : Request T) (res : Response) (b : String) (hb : req.Body = some b) :
    LoggingMiddleware fmt h req res
        = (h (loggedRequest req) (res.Println (fmt.requestLog req b))).map
            (fun res2 => res2.Println (fmt.responseLog res2)) ∧
      (loggedRequest req).Body = some b ∧
      (loggedRequest req).URL = req.URL ∧
      (loggedRequest req).Method = req.Method ∧
      (loggedRequest req).Header = req.Header ∧
      (loggedRequest req).Params = req.Params ∧
      (loggedRequest req).Context = req.Context ∧
      (loggedRequest req).rootPattern = req.rootPattern ∧
      loggedRequest req = req := by
  have hl : loggedRequest req = req := by
    cases req
    simp only at hb
    subst hb
    rfl
  have hbody : loggedBody req = b := by
    simp [loggedBody, hb, ReadAll]
  refine ⟨?_, ?_, ?_, ?_, ?_, ?_, ?_, ?_, hl⟩
  · simp only [LoggingMiddleware, hbody]
  all_goals rw [hl]
  exact hb

theorem LoggingMiddleware_restores_body_witness :
    ({ plainRequest "POST" "/health".toList with Body := some "payload" } : Request Unit).Body
      = some "payload" ∧
    (loggedRequest ({ plainRequest "POST" "/health".toList with Body := some "payload" }
      : Request Unit)).Body = some "payload" :=
  ⟨rfl, (LoggingMiddleware_restores_body
    { requestLog := fun _ body => "Request log: " ++ body, responseLog := fun _ => "Response log" }
    (recordingHandler "h")
    ({ plainRequest "POST" "/health".toList with Body := some "payload" } : Request Unit)
    emptyResponse "payload" rfl).2.1⟩

/-! ## Registration appends -/

/-- A pattern without regexp syntax compiles, as mounted, to the start anchor
followed by its characters taken literally. -/
theorem MustCompile_prefix (P : List Char) (hP : ∀ c ∈ P, isMeta c = false) :
    MustCompile ("^".toList ++ P) = some (prefixRegexp P) := by
  have h := parseFrom_plain P hP [.bol] [] 0 []
  rw [List.append_nil] at h
  have h0 : parseFrom ⟨[], [], 0, .normal⟩ ("^".toList ++ P)
      = parseFrom ⟨[.bol], [], 0, .normal⟩ P := rfl
  unfold MustCompile
  rw [h0, h]
  simp [parseFrom, prefixRegexp, List.reverse_append, catList]

/-- For a pattern other than `/` the method registrations compile `P/?$` and
append one node. -/
theorem register_eq {T : Type} (M : String) (r : Router T) (P : List Char) (h : Handler T)
    (hroot : r.root.pattern = rootRegexp) (hne : P ≠ "/".toList) :
    Router.register M r P h
      = (MustCompile (P ++ "/?$".toList)).map (fun regex =>
          r.appended { pattern := regex, method := M, handler := some h }) := by
  have hm : r.root.pattern.MatchString P = false := by
    rw [hroot, rootRegexp_MatchString]
    simpa using hne
  unfold Router.register
  rw [hm]
  simp [Router.appended]

theorem isWordChar_not_meta (c : Char) (hc : isWordChar c = true) : isMeta c = false := by
  cases hm : isMeta c with
  | false => rfl
  | true =>
    exfalso
    simp only [isMeta, Bool.or_eq_true, beq_iff_eq] at hm
    rcases hm with ((((((((((((( h | h) | h) | h) | h) | h) | h) | h) | h) | h) | h) | h) | h) | h)
      <;> subst h <;> revert hc <;> decide

theorem isLiteralChar_not_meta (c : Char) (hc : isLiteralChar c = true) : isMeta c = false := by
  simp only [isLiteralChar, Bool.and_eq_true, Bool.not_eq_true'] at hc
  exact hc.1

/-- The text of a pattern of the route syntax is free of regexp syntax. -/
theorem patternOf_plain (ps : List Piece) (hps : ∀ p ∈ ps, p.valid = true) :
    ∀ c ∈ patternOf ps, isMeta c = false := by
  induction ps with
  | nil => intro c hc; simp [patternOf] at hc
  | cons p ps ih =>
    intro c hc
    have hps1 : ∀ q ∈ ps, q.valid = true := fun q hq => hps q (List.mem_cons_of_mem _ hq)
    have hp := hps p (List.mem_cons_self _ _)
    simp only [patternOf, List.mem_append] at hc
    rcases hc with hc | hc
    · cases p with
      | lit text =>
        simp only [Piece.pattern, List.mem_cons] at hc
        rcases hc with hc | hc
        · rw [hc]; decide
        · exact isLiteralChar_not_meta c (Piece.valid_lit hp c hc)
      | param name value =>
        obtain ⟨_, hname, _, _⟩ := Piece.valid_param hp
        simp only [Piece.pattern, List.mem_cons] at hc
        rcases hc with hc | hc | hc
        · rw [hc]; decide
        · rw [hc]; decide
        · exact isWordChar_not_meta c (hname c hc)
    · exact ih hps1 c hc

/-- C18: for a pattern `P` other than `/`, each of `Get`, `Post`, `Put`,
`Patch`, `Delete` and `SubRoute` yields the router with the same root node,
the same entries in the same order and one node more at the end, which carries
the operation's method label, the pattern compiled from `P` (from `P/?$`, for
`SubRoute` from `^P`) and the handler; a pattern free of regexp syntax always
compiles. -/
theorem registration_appends {T : Type} (r : Router T) (P : List Char) (h : Handler T)
    (hroot : r.root.pattern = rootRegexp) (hne : P ≠ "/".toList) :
    (∀ regex, MustCompile (P ++ "/?$".toList) = some regex →
      r.Get P h = some (r.appended { pattern := regex, method := "GET", handler := some h }) ∧
      r.Post P h = some (r.appended { pattern := regex, method := "POST", handler := some h }) ∧
      r.Put P h = some (r.appended { pattern := regex, method := "PUT", handler := some h }) ∧
      r.Patch P h
        = some (r.appended { pattern := regex, method := "PATCH", handler := some h }) ∧
      r.Delete P h
        = some (r.appended { pattern := regex, method := "DELETE", handler := some h })) ∧
    (∀ regex, MustCompile ("^".toList ++ P) = some regex →
      r.SubRoute P h
        = some (r.appended { pattern := regex, method := "ALL", handler := some h })) ∧
    (∀ node : HandlerNode T,
      (r.appended node).root = r.root ∧ (r.appended node).next = r.next ++ [node]) ∧
    ((∀ c ∈ P, isMeta c = false) →
      MustCompile (P ++ "/?$".toList) = some (literalRegexp P) ∧
      MustCompile ("^".toList ++ P) = some (prefixRegexp P)) := by
  refine ⟨fun regex hc => ?_, fun regex hc => ?_, fun node => ⟨rfl, rfl⟩,
    fun hP => ⟨MustCompile_plain P hP, MustCompile_prefix P hP⟩⟩
  · simp only [Router.Get, Router.Post, Router.Put, Router.Patch, Router.Delete,
      register_eq _ r P h hroot hne, hc, Option.map_some', and_self]
  · simp only [Router.SubRoute, hc, Option.map_some', Router.appended]

theorem registration_appends_witness :
    healthRouter.root.pattern = rootRegexp ∧
    "/api".toList ≠ "/".toList ∧
    (∀ c ∈ "/api".toList, isMeta c = false) ∧
    healthRouter.Put "/api".toList HandleFunc
      = some (healthRouter.appended
          { pattern := literalRegexp "/api".toList, method := "PUT",
            handler := some HandleFunc }) ∧
    healthRouter.SubRoute "/api".toList HandleFunc
      = some (healthRouter.appended
          { pattern := prefixRegexp "/api".toList, method := "ALL",
            handler := some HandleFunc }) :=
  ⟨rfl, by decide, by decide,
    ((registration_appends healthRouter "/api".toList HandleFunc rfl (by decide)).1
      (literalRegexp "/api".toList) rfl).2.2.1,
    (registration_appends healthRouter "/api".toList HandleFunc rfl (by decide)).2.1
      (prefixRegexp "/api".toList) rfl⟩

/-- C13, amended: registration does not look at parameter names: for a pattern
of the route syntax that declares the same parameter name twice, `Get`, `Post`,
`Put`, `Patch` and `Delete` report nothing and append the entry, as for any
other pattern. -/
theorem register_duplicate_names {T : Type} (r : Router T) (ps : List Piece) (h : Handler T)
    (hroot : r.root.pattern = rootRegexp) (hvalid : ∀ p ∈ ps, p.valid = true)
    (hne : patternOf ps ≠ "/".toList) (_hdup : ¬ (paramNames ps).Nodup) :
    r.Get (patternOf ps) h
      = some (r.appended { pattern := literalRegexp (patternOf ps), method := "GET",
                           handler := some h }) ∧
    r.Post (patternOf ps) h
      = some (r.appended { pattern := literalRegexp (patternOf ps), method := "POST",
                           handler := some h }) ∧
    r.Put (patternOf ps) h
      = some (r.appended { pattern := literalRegexp (patternOf ps), method := "PUT",
                           handler := some h }) ∧
    r.Patch (patternOf ps) h
      = some (r.appended { pattern := literalRegexp (patternOf ps), method := "PATCH",
                           handler := some h }) ∧
    r.Delete (patternOf ps) h
      = some (r.appended { pattern := literalRegexp (patternOf ps), method := "DELETE",
                           handler := some h }) := by
  have hc := MustCompile_plain (patternOf ps) (patternOf_plain ps hvalid)
  simp only [Router.Get, Router.Post, Router.Put, Router.Patch, Router.Delete,
    register_eq _ r (patternOf ps) h hroot hne, hc, Option.map_some', and_self]

theorem register_duplicate_names_witness :
    patternOf [.param "id".toList "1".toList, .param "id".toList "2".toList]
      = "/:id/:id".toList ∧
    ¬ (paramNames [.param "id".toList "1".toList, .param "id".toList "2".toList]).Nodup ∧
    healthRouter.Get "/:id/:id".toList HandleFunc
      = some (healthRouter.appended
          { pattern := literalRegexp "/:id/:id".toList, method := "GET",
            handler := some HandleFunc }) :=
  ⟨rfl, by decide,
    (register_duplicate_names healthRouter
      [.param "id".toList "1".toList, .param "id".toList "2".toList] HandleFunc
      rfl (by decide) (by decide) (by decide)).1⟩

/-- C13 as stated fails: `Get` with the pattern `/a/:id/b/:id`, which declares
`id` twice, reports nothing and adds the entry; a request for `/a/1/b/2` then
reaches the handler with `id = 2`. -/
theorem register_duplicate_names_counterexample :
    twiceRouter.map (fun r => r.next.map (fun n => (n.pattern.String, n.method)))
      = some [("/a/:id/b/:id/?$".toList, "GET")] ∧
    twiceRouter.bind (fun r => r.Handle (plainRequest "GET" "/a/1/b/2".toList) emptyResponse)
      = some (emptyResponse.Println "2") := by
  decide

/-- C14: after `/` was registered once, registering `/` again changes the
entry sequence: it appends an entry with the pattern `//?$`, and a request for
`/x/`, answered 404 before, now reaches the second handler; only the root
handler is kept. -/
theorem root_reregistration_appends :
    rootOnce.root.handler.isSome = true ∧
    rootOnce.next.map (fun n => (n.pattern.String, n.method)) = [] ∧
    rootTwice.map (fun r => r.next.map (fun n => (n.pattern.String, n.method)))
      = some [("//?$".toList, "GET")] ∧
    rootOnce.Handle (plainRequest "GET" "/x/".toList) emptyResponse
      = some ((emptyResponse.WriteText StatusNotFound "").Println
          "No routes found. Request reached end of the chain.") ∧
    rootTwice.bind (fun r => r.Handle (plainRequest "GET" "/x/".toList) emptyResponse)
      = some (emptyResponse.Println "second") ∧
    rootTwice.bind (fun r => r.Handle (plainRequest "GET" "/".toList) emptyResponse)
      = some (emptyResponse.Println "first") := by
  decide

/-! ## Trailing slash -/

theorem literalRegexp_matchAt_tail (P : List Char) (pos : Nat) (tl : List Char)
    (htl : tl = [] ∨ tl = ['/']) :
    (literalRegexp P).matchAt pos (P ++ tl) = some (pos + P.length + tl.length, [], []) := by
  have h := litAtoms_run P tl pos [] (fun p t c =>
    (catList [Re.quest (.lit '/'), Re.eol]).run p t c accept)
  simp only [Regexp.matchAt, literalRegexp, List.replicate]
  rw [catList_append_run]
  exact h.trans (tail_run _ _ tl htl)

/-- An entry registered for a literal pattern structurally matches the pattern
text followed by a slash. -/
theorem structMatch_literal_slash {T : Type} (e : HandlerNode T) (P : List Char)
    (hP : ∀ c ∈ P, isLiteralChar c = true) (he : e.pattern.String = P ++ "/?$".toList) :
    structMatch e (P ++ "/".toList) = some true := by
  unfold structMatch
  rw [nodeRegex_literal e P hP he]
  have h := search_isSome_append (literalRegexp P) (P ++ ['/']) [] [] 0
    (by rw [literalRegexp_matchAt_tail P _ ['/'] (Or.inr rfl)]; rfl)
  simpa [Regexp.MatchString] using h

/-- C12, amended: in a router in which no entry before the one registered for
`/health` structurally matches `/health` or `/health/`, a request entering the
router is resolved alike on both paths: on the registered method the handler of
that entry is called, on any other method the answer is 405.  Likewise an
entry registered for `/api/:id` structurally matches `/api/5` and `/api/5/`,
and writes `id = 5` for both. -/
theorem trailing_slash_alike {T : Type} (r : Router T) (req : Request T) (res : Response)
    (pre post : List (HandlerNode T)) (e : HandlerNode T) (h : Handler T) (M : String)
    (hroot : r.root.pattern = rootRegexp)
    (hnext : r.next = pre ++ e :: post)
    (hpre : ∀ n ∈ pre, structMatch n "/health".toList = some false ∧
      structMatch n "/health/".toList = some false)
    (he : registeredAs e M "/health".toList h)
    (htop : req.rootPattern = []) :
    (req.Method = M →
      r.Handle { req with URL := { Path := "/health".toList } } res
        = h (({ req with URL := { Path := "/health".toList } } : Request T).matched e
              req.Params) res ∧
      r.Handle { req with URL := { Path := "/health/".toList } } res
        = h (({ req with URL := { Path := "/health/".toList } } : Request T).matched e
              req.Params) res) ∧
    (req.Method ≠ M →
      r.Handle { req with URL := { Path := "/health".toList } } res
        = some (res.WriteText StatusMethodNotAllowed "") ∧
      r.Handle { req with URL := { Path := "/health/".toList } } res
        = some (res.WriteText StatusMethodNotAllowed "")) ∧
    (∀ e2 : HandlerNode T, e2.pattern.String = "/api/:id/?$".toList →
      structMatch e2 "/api/5".toList = some true ∧
      structMatch e2 "/api/5/".toList = some true ∧
      nodeParams e2 { req with URL := { Path := "/api/5".toList } }
        = some (mapSet req.Params "id".toList "5".toList) ∧
      nodeParams e2 { req with URL := { Path := "/api/5/".toList } }
        = some (mapSet req.Params "id".toList "5".toList)) := by
  obtain ⟨hpat, hm, hh⟩ := he
  have hlit : ∀ c ∈ "/health".toList, isLiteralChar c = true := by decide
  have hs1 := structMatch_literal e "/health".toList hlit hpat
  have hs2 := structMatch_literal_slash e "/health".toList hlit hpat
  have hpre1 : ∀ n ∈ pre, structMatch n "/health".toList = some false :=
    fun n hn => (hpre n hn).1
  have hpre2 : ∀ n ∈ pre, structMatch n "/health/".toList = some false :=
    fun n hn => (hpre n hn).2
  have ht1 : ({ req with URL := { Path := "/health".toList } } : Request T).rootPattern
      ++ "/health".toList = "/health".toList := by
    show req.rootPattern ++ _ = _
    rw [htop]; rfl
  have ht2 : ({ req with URL := { Path := "/health/".toList } } : Request T).rootPattern
      ++ "/health/".toList = "/health/".toList := by
    show req.rootPattern ++ _ = _
    rw [htop]; rfl
  have hn1 : "/health".toList ≠ "/".toList := by decide
  have hn2 : "/health/".toList ≠ "/".toList := by decide
  refine ⟨fun hmeth => ⟨?_, ?_⟩, fun hmeth => ⟨?_, ?_⟩, fun e2 he2 => ?_⟩
  · exact Handle_first_hit_invokes r _ res pre post e h req.Params hroot hn1
      (by rw [ht1]; decide) hnext (by rw [ht1]; exact hpre1) (by rw [ht1]; exact hs1)
      (by rw [hm]; exact hmeth.symm)
      (nodeParams_literal e "/health".toList hlit hpat _) hh
  · exact Handle_first_hit_invokes r _ res pre post e h req.Params hroot hn2
      (by rw [ht2]; decide) hnext (by rw [ht2]; exact hpre2) (by rw [ht2]; exact hs2)
      (by rw [hm]; exact hmeth.symm)
      (nodeParams_literal e "/health".toList hlit hpat _) hh
  · exact Handle_first_hit_rejects r _ res pre post e hroot hn1
      (by rw [ht1]; decide) hnext (by rw [ht1]; exact hpre1) (by rw [ht1]; exact hs1)
      (by rw [hm]; exact fun hc => hmeth hc.symm)
  · exact Handle_first_hit_rejects r _ res pre post e hroot hn2
      (by rw [ht2]; decide) hnext (by rw [ht2]; exact hpre2) (by rw [ht2]; exact hs2)
      (by rw [hm]; exact fun hc => hmeth hc.symm)
  · have hv : ∀ q ∈ [Piece.lit "api".toList, .param "id".toList "5".toList],
        q.valid = true := by decide
    have hp : e2.pattern.String
        = patternOf [Piece.lit "api".toList, .param "id".toList "5".toList]
          ++ "/?$".toList := he2
    refine ⟨?_, ?_, ?_, ?_⟩
    · exact structMatch_pieces e2 _ hv hp [] (Or.inl rfl)
    · exact structMatch_pieces e2 _ hv hp ['/'] (Or.inr rfl)
    · exact nodeParams_pieces e2 _ _ hv hp [] (Or.inl rfl) _ rfl
    · exact nodeParams_pieces e2 _ _ hv hp ['/'] (Or.inr rfl) _ rfl

theorem trailing_slash_alike_witness :
    healthRouter.root.pattern = rootRegexp ∧
    registeredAs (healthRouter.next.get ⟨0, by decide⟩) "GET" "/health".toList
      (recordingHandler "GET /health") ∧
    healthRouter.Handle (plainRequest "GET" "/health".toList) emptyResponse
      = some (emptyResponse.Println "GET /health") ∧
    healthRouter.Handle (plainRequest "GET" "/health/".toList) emptyResponse
      = some (emptyResponse.Println "GET /health") :=
  ⟨rfl, ⟨rfl, rfl, rfl⟩,
    ((trailing_slash_alike healthRouter (plainRequest "GET" "/".toList) emptyResponse
      [] (healthRouter.next.drop 1) (healthRouter.next.get ⟨0, by decide⟩)
      (recordingHandler "GET /health") "GET" rfl rfl (by simp) ⟨rfl, rfl, rfl⟩ rfl).1 rfl).1,
    ((trailing_slash_alike healthRouter (plainRequest "GET" "/".toList) emptyResponse
      [] (healthRouter.next.drop 1) (healthRouter.next.get ⟨0, by decide⟩)
      (recordingHandler "GET /health") "GET" rfl rfl (by simp) ⟨rfl, rfl, rfl⟩ rfl).1 rfl).2⟩

/-- C12 as stated fails: on a router on which `/health` was registered, after
`/health/`, the GET requests for `/health` and for `/health/` reach different
handlers. -/
theorem trailing_slash_counterexample :
    (∃ e ∈ slashRouter.next, registeredAs e "GET" "/health".toList
        (recordingHandler "without slash")) ∧
    slashRouter.Handle (plainRequest "GET" "/health".toList) emptyResponse
      = some (emptyResponse.Println "without slash") ∧
    slashRouter.Handle (plainRequest "GET" "/health/".toList) emptyResponse
      = some (emptyResponse.Println "with slash") ∧
    slashRouter.Handle (plainRequest "GET" "/health".toList) emptyResponse
      ≠ slashRouter.Handle (plainRequest "GET" "/health/".toList) emptyResponse := by
  refine ⟨⟨slashRouter.next.get ⟨1, by decide⟩, List.get_mem _ _ _, rfl, rfl, rfl⟩,
    by decide, by decide, by decide⟩

/-! ## Nested routers -/

/-- C19, amended: whatever the consumed prefix of the request, an entry of the
router is taken or passed over according to whether its matcher matches the
consumed prefix followed by the request path: on a match the entry decides the
outcome, otherwise the scan goes on with the entries after it. -/
theorem nested_matches_prefixed_path {T : Type} (r : Router T) (req : Request T)
    (res : Response) (pre post : List (HandlerNode T)) (e : HandlerNode T)
    (hroot : r.root.pattern = rootRegexp) (hpath : req.URL.Path ≠ "/".toList)
    (htext : req.rootPattern ++ req.URL.Path ≠ "/".toList)
    (hnext : r.next = pre ++ e :: post)
    (hpre : ∀ n ∈ pre, structMatch n (req.rootPattern ++ req.URL.Path) = some false) :
    (structMatch e (req.rootPattern ++ req.URL.Path) = some true →
      r.Handle req res =
        if e.method ≠ req.Method then some (res.WriteText StatusMethodNotAllowed "")
        else (nodeParams e req).bind (fun params =>
          e.handler.bind (fun f => f (req.matched e params) res))) ∧
    (structMatch e (req.rootPattern ++ req.URL.Path) = some false →
      r.Handle req res = Router.scan paramRegexp post req res) := by
  refine ⟨fun he => Handle_first_hit r req res pre post e hroot hpath htext hnext hpre he,
    fun he => ?_⟩
  rw [Handle_scan r req res hroot hpath htext, hnext, scan_skip_all pre _ req res hpre,
    scan_skip e post req res he]

theorem nested_matches_prefixed_path_witness :
    innerRouter.root.pattern = rootRegexp ∧
    (mountedRequest "ALL" "/v1/api".toList).rootPattern = "/v1".toList ∧
    structMatch (innerRouter.next.get ⟨0, by decide⟩) "/v1/v1/api".toList = some false ∧
    innerRouter.Handle (mountedRequest "ALL" "/v1/api".toList) emptyResponse
      = some ((emptyResponse.WriteText StatusNotFound "").Println
          "No routes found. Request reached end of the chain.") :=
  ⟨rfl, rfl, by decide,
    (nested_matches_prefixed_path innerRouter (mountedRequest "ALL" "/v1/api".toList)
      emptyResponse [] [] (innerRouter.next.get ⟨0, by decide⟩) rfl (by decide) (by decide)
      rfl (by simp)).2 (by decide)⟩

/-- C19 as stated fails: the only entry of the nested router, mounted on
`/v1/api`, matches the request path `/v1/api` alone, as a top-level request
shows; but after the outer router consumed the prefix `/v1`, the nested router
passes the entry over and answers 404. -/
theorem nested_matches_counterexample :
    structMatch (innerRouter.next.get ⟨0, by decide⟩) "/v1/api".toList = some true ∧
    innerRouter.Handle (plainRequest "ALL" "/v1/api".toList) emptyResponse
      = some (emptyResponse.Println "leaf") ∧
    (mountedRequest "ALL" "/v1/api".toList).rootPattern ≠ [] ∧
    innerRouter.Handle (mountedRequest "ALL" "/v1/api".toList) emptyResponse
      = some ((emptyResponse.WriteText StatusNotFound "").Println
          "No routes found. Request reached end of the chain.") ∧
    mountedRouter.bind (fun outer =>
        outer.Handle (plainRequest "ALL" "/v1/api".toList) emptyResponse)
      = some ((emptyResponse.WriteText StatusNotFound "").Println
          "No routes found. Request reached end of the chain.") := by
  decide

/-! ## What a match consumes -/

/-- A successful run consumed a prefix of the text and handed the rest to its
continuation. -/
theorem run_consumed (re : Re) :
    ∀ (pos : Nat) (rest : List Char) (caps : Caps)
      (k : Nat → List Char → Caps → Option RunResult) (r : RunResult),
      re.run pos rest caps k = some r →
      ∃ w t c, rest = w ++ t ∧ k (pos + w.length) t c = some r := by
  induction re with
  | empty => intro pos rest caps k r h; exact ⟨[], rest, caps, rfl, h⟩
  | atom a =>
    intro pos rest caps k r h
    cases rest with
    | nil => simp [Re.run] at h
    | cons c cs =>
      by_cases ht : a.test c = true
      · simp only [Re.run, ht, if_true] at h
        exact ⟨[c], cs, caps, rfl, h⟩
      · simp [Re.run, ht] at h
  | star a =>
    intro pos rest caps k r h
    simp only [Re.run] at h
    obtain ⟨w, t, hw, _, hk⟩ := starLoop_sound _ _ _ _ _ h
    exact ⟨w, t, caps, hw, hk⟩
  | plus a =>
    intro pos rest caps k r h
    cases rest with
    | nil => simp [Re.run] at h
    | cons c cs =>
      by_cases ht : a.test c = true
      · simp only [Re.run, ht, if_true] at h
        obtain ⟨w, t, hw, _, hk⟩ := starLoop_sound _ _ _ _ _ h
        refine ⟨c :: w, t, caps, by rw [hw]; rfl, ?_⟩
        have : pos + (c :: w).length = pos + 1 + w.length := by
          simp only [List.length_cons]; omega
        rw [this]; exact hk
      · simp [Re.run, ht] at h
  | quest a =>
    intro pos rest caps k r h
    cases rest with
    | nil => simp only [Re.run] at h; exact ⟨[], [], caps, rfl, h⟩
    | cons c cs =>
      by_cases ht : a.test c = true
      · simp only [Re.run, ht, if_true] at h
        cases hk1 : k (pos + 1) cs caps with
        | none => rw [hk1] at h; exact ⟨[], c :: cs, caps, rfl, h⟩
        | some r1 =>
          rw [hk1] at h
          simp only [Option.some.injEq] at h
          subst h
          exact ⟨[c], cs, caps, rfl, hk1⟩
      · have ht' : a.test c = false := by simpa using ht
        simp only [Re.run, ht', Bool.false_eq_true, if_false] at h
        exact ⟨[], c :: cs, caps, rfl, h⟩
  | bol =>
    intro pos rest caps k r h
    by_cases hp : pos = 0
    · simp only [Re.run, hp, if_true] at h
      exact ⟨[], rest, caps, rfl, by simpa [hp] using h⟩
    · simp [Re.run, hp] at h
  | eol =>
    intro pos rest caps k r h
    cases rest with
    | nil => simp only [Re.run] at h; exact ⟨[], [], caps, rfl, h⟩
    | cons c cs => simp [Re.run] at h
  | cat r1 r2 ih1 ih2 =>
    intro pos rest caps k r h
    simp only [Re.run] at h
    obtain ⟨w1, t1, c1, hw1, hk1⟩ := ih1 pos rest caps _ r h
    obtain ⟨w2, t2, c2, hw2, hk2⟩ := ih2 _ t1 c1 k r hk1
    refine ⟨w1 ++ w2, t2, c2, by rw [hw1, hw2, List.append_assoc], ?_⟩
    have : pos + (w1 ++ w2).length = pos + w1.length + w2.length := by
      rw [List.length_append]; omega
    rw [this]; exact hk2
  | group idx r1 ih =>
    intro pos rest caps k r h
    simp only [Re.run] at h
    obtain ⟨w, t, c, hw, hk⟩ := ih pos rest caps _ r h
    exact ⟨w, t, _, hw, hk⟩

theorem matchAt_consumed (re : Regexp) (pos : Nat) (rest : List Char) (r : RunResult)
    (h : re.matchAt pos rest = some r) :
    ∃ w, rest = w ++ r.2.1 ∧ r.1 = pos + w.length := by
  obtain ⟨w, t, c, hw, hk⟩ := run_consumed re.prog pos rest _ _ r h
  simp only [Option.some.injEq] at hk
  subst hk
  exact ⟨w, hw, rfl⟩

/-- A match found by a search splits the text into the part passed over, the
matched text and the text after it. -/
theorem search_split (re : Regexp) :
    ∀ (rest skipped : List Char) (pos : Nat) (m : Match),
      re.search skipped pos rest = some m →
      ∃ s, m.skipped = skipped.reverse ++ s ∧ rest = s ++ m.text ++ m.after ∧
        m.start = pos + s.length ∧ m.stop = m.start + m.text.length := by
  intro rest
  induction rest with
  | nil =>
    intro skipped pos m h
    simp only [Regexp.search, Option.map_eq_some'] at h
    obtain ⟨r, hr, hm⟩ := h
    obtain ⟨w, hw, hp⟩ := matchAt_consumed re pos [] r hr
    have hw0 : w = [] ∧ r.2.1 = [] := by
      cases w with
      | nil => exact ⟨rfl, by simpa using hw.symm⟩
      | cons c cs => simp at hw
    subst hm
    refine ⟨[], by simp, by simp [hw0.2], by simp, ?_⟩
    simp [hp, hw0.1]
  | cons c cs ih =>
    intro skipped pos m h
    cases hr : re.matchAt pos (c :: cs) with
    | some r =>
      simp only [Regexp.search, hr, Option.some.injEq] at h
      obtain ⟨w, hw, hp⟩ := matchAt_consumed re pos _ r hr
      subst h
      have htake : (c :: cs).take (r.1 - pos) = w := by
        rw [hp, Nat.add_sub_cancel_left, hw, List.take_left' rfl]
      refine ⟨[], by simp, ?_, by simp, ?_⟩
      · simp only [List.nil_append, htake]; exact hw
      · simp only [htake]; exact hp
    | none =>
      simp only [Regexp.search, hr] at h
      obtain ⟨s, hs, hrest, hstart, hstop⟩ := ih _ _ m h
      refine ⟨c :: s, ?_, ?_, ?_, hstop⟩
      · rw [hs]; simp
      · rw [hrest]; simp
      · rw [hstart]; simp only [List.length_cons]; omega

/-- A match of the parameter-marker pattern is never empty. -/
theorem paramRegexp_match_nonempty (skipped rest : List Char) (pos : Nat) (m : Match)
    (h : paramRegexp.search skipped pos rest = some m) : m.text ≠ [] := by
  induction rest generalizing skipped pos with
  | nil => simp [Regexp.search, paramRegexp_matchAt_nil] at h
  | cons c cs ih =>
    cases hr : paramRegexp.matchAt pos (c :: cs) with
    | some r =>
      simp only [Regexp.search, hr, Option.some.injEq] at h
      have hpos : pos + 1 ≤ r.1 := by
        by_cases hc : c = ':'
        · subst hc
          have hr1 : (Re.cat (.plus markerClass) .empty).run (pos + 1) cs [] accept = some r := by
            simpa [Regexp.matchAt, paramRegexp, Re.run, Atom.test_lit, accept] using hr
          obtain ⟨w, t, c1, _, hk⟩ := run_consumed _ _ _ _ _ _ hr1
          simp only [accept, Option.some.injEq] at hk
          rw [← hk]
          simp
        · rw [paramRegexp_matchAt_ne pos c cs hc] at hr
          simp at hr
      subst h
      simp only [ne_eq, List.take_eq_nil_iff, List.cons_ne_nil, or_false]
      omega
    | none =>
      simp only [Regexp.search, hr] at h
      exact ih _ _ h

/-! ## The parser and parentheses -/

theorem applyRep_keeps (mk : Atom → Re) (st st1 : PState) (h : applyRep mk st = some st1) :
    st1.stack = st.stack ∧ st1.ncap = st.ncap ∧ st1.mode = .normal := by
  unfold applyRep at h
  split at h
  · simp only [Option.some.injEq] at h
    subst h
    exact ⟨rfl, rfl, rfl⟩
  · simp at h

theorem classChar_mode (items : List ClassItem) (pend : Pend) (c : Char) (m : Mode)
    (h : classChar items pend c = some m) : ∃ i p, m = .cls i p := by
  unfold classChar at h
  split at h
  · simp only [Option.some.injEq] at h; exact ⟨_, _, h.symm⟩
  · split at h <;> (simp only [Option.some.injEq] at h; exact ⟨_, _, h.symm⟩)
  · split at h
    · simp only [Option.some.injEq] at h; exact ⟨_, _, h.symm⟩
    · simp at h

theorem classEscaped_mode (items : List ClassItem) (pend : Pend) (c : Char) (m : Mode)
    (h : classEscaped items pend c = some m) : ∃ i p, m = .cls i p := by
  unfold classEscaped at h
  split at h
  · simp only [Option.some.injEq] at h; exact ⟨_, _, h.symm⟩
  · exact classChar_mode _ _ _ _ h

theorem stepNormal_no_open (cur : List Re) (ncap : Nat) (mode : Mode) (st1 : PState) (c : Char)
    (hc : c ≠ '(') (h : stepNormal ⟨cur, [], ncap, mode⟩ c = some st1) :
    st1.stack = [] ∧ st1.ncap = ncap ∧ st1.mode ≠ .afterOpen := by
  unfold stepNormal at h
  rw [if_neg hc] at h
  by_cases h1 : c = '\\'
  · rw [if_pos h1] at h
    simp only [Option.some.injEq] at h; subst h; exact ⟨rfl, rfl, by simp⟩
  rw [if_neg h1] at h
  by_cases h2 : c = ')'
  · rw [if_pos h2] at h; simp at h
  rw [if_neg h2] at h
  by_cases h3 : c = '['
  · rw [if_pos h3] at h
    simp only [Option.some.injEq] at h; subst h; exact ⟨rfl, rfl, by simp⟩
  rw [if_neg h3] at h
  by_cases h4 : c = '*'
  · rw [if_pos h4] at h
    obtain ⟨k1, k2, k3⟩ := applyRep_keeps _ _ _ h; exact ⟨k1, k2, by rw [k3]; simp⟩
  rw [if_neg h4] at h
  by_cases h5 : c = '+'
  · rw [if_pos h5] at h
    obtain ⟨k1, k2, k3⟩ := applyRep_keeps _ _ _ h; exact ⟨k1, k2, by rw [k3]; simp⟩
  rw [if_neg h5] at h
  by_cases h6 : c = '?'
  · rw [if_pos h6] at h
    obtain ⟨k1, k2, k3⟩ := applyRep_keeps _ _ _ h; exact ⟨k1, k2, by rw [k3]; simp⟩
  rw [if_neg h6] at h
  by_cases h7 : c = '^'
  · rw [if_pos h7] at h
    simp only [Option.some.injEq] at h; subst h; exact ⟨rfl, rfl, by simp⟩
  rw [if_neg h7] at h
  by_cases h8 : c = '$'
  · rw [if_pos h8] at h
    simp only [Option.some.injEq] at h; subst h; exact ⟨rfl, rfl, by simp⟩
  rw [if_neg h8] at h
  by_cases h9 : c = '.'
  · rw [if_pos h9] at h
    simp only [Option.some.injEq] at h; subst h; exact ⟨rfl, rfl, by simp⟩
  rw [if_neg h9] at h
  by_cases h10 : c = '|' ∨ c = '{' ∨ c = '}' ∨ c = ']'
  · rw [if_pos h10] at h; simp at h
  rw [if_neg h10] at h
  simp only [Option.some.injEq] at h; subst h; exact ⟨rfl, rfl, by simp⟩

theorem classStep_no_open (cur : List Re) (ncap : Nat) (st1 : PState)
    (items : List ClassItem) (pend : Pend) (c : Char)
    (h : (classChar items pend c).map
      (fun m => ({ cur := cur, stack := [], ncap := ncap, mode := m } : PState)) = some st1) :
    st1.stack = [] ∧ st1.ncap = ncap ∧ st1.mode ≠ .afterOpen := by
  simp only [Option.map_eq_some'] at h
  obtain ⟨m, hm1, hm2⟩ := h
  obtain ⟨i, p, hip⟩ := classChar_mode _ _ _ _ hm1
  subst hm2
  exact ⟨rfl, rfl, by rw [hip]; simp⟩

theorem classEscapedStep_no_open (cur : List Re) (ncap : Nat) (st1 : PState)
    (items : List ClassItem) (pend : Pend) (c : Char)
    (h : (classEscaped items pend c).map
      (fun m => ({ cur := cur, stack := [], ncap := ncap, mode := m } : PState)) = some st1) :
    st1.stack = [] ∧ st1.ncap = ncap ∧ st1.mode ≠ .afterOpen := by
  simp only [Option.map_eq_some'] at h
  obtain ⟨m, hm1, hm2⟩ := h
  obtain ⟨i, p, hip⟩ := classEscaped_mode _ _ _ _ hm1
  subst hm2
  exact ⟨rfl, rfl, by rw [hip]; simp⟩

/-- A character other than `(` read with no parenthesis open leaves no
parenthesis open and the group count as it is. -/
theorem step_no_open (st st1 : PState) (c : Char) (hc : c ≠ '(') (hs : st.stack = [])
    (hm : st.mode ≠ .afterOpen) (h : step st c = some st1) :
    st1.stack = [] ∧ st1.ncap = st.ncap ∧ st1.mode ≠ .afterOpen := by
  obtain ⟨cur, stack, ncap, mode⟩ := st
  simp only at hs hm
  subst hs
  cases mode with
  | afterOpen => exact absurd rfl hm
  | normal =>
    simp only [step] at h
    exact stepNormal_no_open cur ncap _ st1 c hc h
  | esc =>
    simp only [step] at h
    split_ifs at h
    all_goals (simp only [Option.some.injEq] at h; subst h; exact ⟨rfl, rfl, by simp⟩)
  | clsStart =>
    simp only [step] at h
    split_ifs at h
    all_goals first
      | (exact classStep_no_open cur ncap st1 _ _ c h)
      | (simp only [Option.some.injEq] at h; subst h; exact ⟨rfl, rfl, by simp⟩)
  | cls items pend =>
    simp only [step] at h
    split_ifs at h
    all_goals first
      | (exact classStep_no_open cur ncap st1 _ _ c h)
      | (simp only [Option.some.injEq] at h; subst h; exact ⟨rfl, rfl, by simp⟩)
  | clsEsc items pend =>
    simp only [step] at h
    split_ifs at h
    all_goals first
      | (exact classEscapedStep_no_open cur ncap st1 _ _ c h)
      | (cases pend <;>
          first
          | (simp only [Option.some.injEq] at h; subst h; exact ⟨rfl, rfl, by simp⟩)
          | (simp at h))

theorem parseFrom_no_open (w : List Char) (hw : ∀ c ∈ w, c ≠ '(') :
    ∀ (st st1 : PState), st.stack = [] → st.mode ≠ .afterOpen → parseFrom st w = some st1 →
      st1.stack = [] ∧ st1.ncap = st.ncap ∧ st1.mode ≠ .afterOpen := by
  induction w with
  | nil =>
    intro st st1 hs hm h
    simp only [parseFrom, Option.some.injEq] at h
    subst h
    exact ⟨hs, rfl, hm⟩
  | cons c w ih =>
    intro st st1 hs hm h
    simp only [parseFrom] at h
    cases hstep : step st c with
    | none => rw [hstep] at h; simp at h
    | some st2 =>
      rw [hstep, Option.some_bind] at h
      obtain ⟨h1, h2, h3⟩ := step_no_open st st2 c (hw c (List.mem_cons_self _ _)) hs hm hstep
      obtain ⟨h4, h5, h6⟩ := ih (fun d hd => hw d (List.mem_cons_of_mem _ hd)) st2 st1 h1 h3 h
      exact ⟨h4, by rw [h5, h2], h6⟩

theorem parseFrom_append (a b : List Char) :
    ∀ st : PState, parseFrom st (a ++ b) = (parseFrom st a).bind (fun st1 => parseFrom st1 b) := by
  induction a with
  | nil => intro st; rfl
  | cons c a ih =>
    intro st
    simp only [List.cons_append, parseFrom]
    cases step st c with
    | none => rfl
    | some st2 => simp only [Option.some_bind]; exact ih st2

/-- The capture group put in place of a marker is read as one group when no
parenthesis is open, and only outside brackets and escapes. -/
theorem parseFrom_group_any (st st1 : PState) (rest : List Char) (hs : st.stack = [])
    (hm : st.mode ≠ .afterOpen)
    (h : parseFrom st ("([\\w-_]+)".toList ++ rest) = some st1) :
    parseFrom ⟨.group (st.ncap + 1) (catList [.plus valueClass]) :: st.cur, [], st.ncap + 1,
      .normal⟩ rest = some st1 := by
  obtain ⟨cur, stack, ncap, mode⟩ := st
  simp only at hs hm
  subst hs
  cases mode with
  | afterOpen => exact absurd rfl hm
  | normal => rw [parseFrom_group] at h; exact h
  | esc =>
    have hnone : parseFrom ⟨cur, [], ncap, .esc⟩ ("([\\w-_]+)".toList ++ rest) = none := rfl
    rw [hnone] at h; simp at h
  | clsStart =>
    have hnone : parseFrom ⟨cur, [], ncap, .clsStart⟩ ("([\\w-_]+)".toList ++ rest) = none := rfl
    rw [hnone] at h; simp at h
  | cls items pend =>
    exfalso
    simp only [String.toList, List.cons_append, parseFrom, step] at h
    cases hcc : classChar items pend '(' with
    | none => simp [hcc] at h
    | some m =>
      obtain ⟨i, p, hip⟩ := classChar_mode _ _ _ _ hcc
      subst hip
      simp [hcc, step] at h
  | clsEsc items pend =>
    exfalso
    simp only [String.toList, List.cons_append, parseFrom, step] at h
    cases hcc : classEscaped items pend '(' with
    | none => simp [hcc, isPunct] at h
    | some m =>
      obtain ⟨i, p, hip⟩ := classEscaped_mode _ _ _ _ hcc
      subst hip
      simp [hcc, step, isPunct] at h

/-! ## Capture groups and parameter keys -/

/-- Reading the text in which the markers were replaced opens one group per
marker found, when the text holds no parenthesis of its own. -/
theorem replaceAll_groups :
    ∀ (fuel pos : Nat) (rest : List Char) (last : Nat) (prev : Option Nat) (st st1 : PState),
      (∀ c ∈ rest, c ≠ '(') → st.stack = [] → st.mode ≠ .afterOpen → last ≤ pos →
      parseFrom st (paramRegexp.replaceAll "([\\w-_]+)".toList fuel pos rest last) = some st1 →
      st1.stack = [] ∧
        st1.ncap = st.ncap + (paramRegexp.allMatches fuel pos rest prev).length := by
  intro fuel
  induction fuel with
  | zero =>
    intro pos rest last prev st st1 hrest hs hm _ h
    simp only [Regexp.replaceAll] at h
    obtain ⟨h1, h2, _⟩ := parseFrom_no_open rest hrest st st1 hs hm h
    exact ⟨h1, by simp [Regexp.allMatches, h2]⟩
  | succ f ih =>
    intro pos rest last prev st st1 hrest hs hm hlast h
    rw [Regexp.replaceAll] at h
    rw [Regexp.allMatches]
    cases hsearch : paramRegexp.search [] pos rest with
    | none =>
      rw [hsearch] at h
      simp only at h
      obtain ⟨h1, h2, _⟩ := parseFrom_no_open rest hrest st st1 hs hm h
      exact ⟨h1, by simp [h2]⟩
    | some m =>
      rw [hsearch] at h
      obtain ⟨s, hsk, hsplit, hstart, hstop⟩ := search_split paramRegexp rest [] pos m hsearch
      have hne := paramRegexp_match_nonempty [] rest pos m hsearch
      have hlen : 0 < m.text.length := List.length_pos.mpr hne
      have h1 : m.stop > last := by omega
      have h2 : ¬ (pos + 1 > m.stop) := by omega
      have h3 : ¬ (m.stop = pos) := by omega
      simp only [h1, true_or, if_true, h2, if_false] at h
      simp only [h3, if_false, List.length_cons]
      rw [List.append_assoc, parseFrom_append] at h
      cases hp : parseFrom st m.skipped with
      | none => rw [hp] at h; simp at h
      | some st2 =>
        rw [hp, Option.some_bind] at h
        have hskip : ∀ c ∈ m.skipped, c ≠ '(' := by
          intro c hc
          apply hrest c
          rw [hsplit]
          simp only [List.reverse_nil, List.nil_append] at hsk
          rw [hsk] at hc
          simp [hc]
        have hafter : ∀ c ∈ m.after, c ≠ '(' := by
          intro c hc
          apply hrest c
          rw [hsplit]
          simp [hc]
        obtain ⟨k1, k2, k3⟩ := parseFrom_no_open m.skipped hskip st st2 hs hm hp
        have hg := parseFrom_group_any st2 st1 _ k1 k3 h
        obtain ⟨r1, r2⟩ := ih m.stop m.after m.stop (some m.stop) _ st1 hafter rfl (by simp)
          (Nat.le_refl _) hg
        refine ⟨r1, ?_⟩
        rw [r2]
        show st2.ncap + 1 + _ = _
        rw [k2]
        omega

/-- For a pattern text without parentheses of its own, the matcher that
`Router.Handle` builds has as many capture groups as `extractParamKeys` returns
keys. -/
theorem nodeRegex_groups {T : Type} (e : HandlerNode T) (regex : Regexp)
    (hsrc : ∀ c ∈ e.pattern.String, c ≠ '(') (hc : nodeRegex e = some regex) :
    regex.numSubexp = (extractParamKeys paramRegexp e.pattern.String).length := by
  unfold nodeRegex MustCompile at hc
  cases hp : parseFrom { cur := [], stack := [], ncap := 0, mode := .normal }
      (paramRegexp.ReplaceAllString e.pattern.String "([\\w-_]+)".toList) with
  | none => rw [hp] at hc; simp at hc
  | some st =>
    rw [hp] at hc
    have hk := replaceAll_groups (e.pattern.String.length + 2) 0 e.pattern.String 0 none
      { cur := [], stack := [], ncap := 0, mode := .normal } st hsrc rfl (by simp)
      (Nat.le_refl _) hp
    have hn : regex.numSubexp = st.ncap := by
      obtain ⟨cur, stack, ncap, mode⟩ := st
      cases mode <;> cases stack <;> simp only [Option.some.injEq] at hc <;>
        first
        | (rw [← hc])
        | (exact absurd hc (by simp))
    rw [hn, hk.2]
    simp [extractParamKeys, Regexp.FindAllString]

theorem populateMatch_isSome (keys : List (List Char)) (gs : List (List Char))
    (h : gs.length ≤ keys.length) (params : List (List Char × List Char)) :
    (populateMatch keys 1 gs params).isSome = true := by
  have hz := populateMatch_zip gs [] keys params h
  simp only [List.nil_append, List.length_nil, Nat.zero_add] at hz
  rw [hz]
  rfl

theorem populateAll_isSome (keys : List (List Char)) :
    ∀ (ms : List (List (List Char))), (∀ m ∈ ms, (m.drop 1).length ≤ keys.length) →
      ∀ params, (populateAll keys ms params).isSome = true := by
  intro ms
  induction ms with
  | nil => intro _ params; rfl
  | cons m ms ih =>
    intro h params
    rw [populateAll]
    have hm := populateMatch_isSome keys (m.drop 1) (h m (List.mem_cons_self _ _)) params
    cases hp : populateMatch keys 1 (m.drop 1) params with
    | none => rw [hp] at hm; simp at hm
    | some p1 =>
      rw [Option.some_bind]
      exact ih (fun m1 hm1 => h m1 (List.mem_cons_of_mem _ hm1)) p1

/-- With at least as many keys as capture groups `populateParams` reads no key
out of range, whatever the path. -/
theorem populateParams_isSome (regex : Regexp) (keys : List (List Char))
    (h : regex.numSubexp ≤ keys.length) (params : List (List Char × List Char))
    (url : List Char) : (populateParams params keys url regex).isSome = true := by
  unfold populateParams Regexp.FindAllStringSubmatch
  apply populateAll_isSome
  intro m hm
  obtain ⟨m1, hm1, rfl⟩ := List.mem_map.mp hm
  have hl := allMatches_caps_length regex _ _ _ _ m1 hm1
  simp only [List.drop_succ_cons, List.drop_zero, List.length_map]
  omega

/-- C20: for a node whose pattern text holds no parenthesis of its own, the
matcher that `Router.Handle` builds, when it compiles, has exactly as many
capture groups as `extractParamKeys` returns names, so that `populateParams`
reads no key out of range on any request path; for a pattern of the route
syntax the matcher does compile. -/
theorem populateParams_in_range {T : Type} (e : HandlerNode T) :
    (∀ regex, (∀ c ∈ e.pattern.String, c ≠ '(') → nodeRegex e = some regex →
      regex.numSubexp = (extractParamKeys paramRegexp e.pattern.String).length ∧
      ∀ params url,
        (populateParams params (extractParamKeys paramRegexp e.pattern.String) url
          regex).isSome = true) ∧
    (∀ ps : List Piece, (∀ p ∈ ps, p.valid = true) →
      e.pattern.String = patternOf ps ++ "/?$".toList →
      (∀ c ∈ e.pattern.String, c ≠ '(') ∧ nodeRegex e = some (piecesRegexp ps) ∧
      (piecesRegexp ps).numSubexp = (paramNames ps).length ∧
      extractParamKeys paramRegexp e.pattern.String = paramNames ps) := by
  refine ⟨fun regex hsrc hc => ?_, fun ps hps he => ⟨?_, nodeRegex_pieces e ps hps he, rfl, ?_⟩⟩
  · have hg := nodeRegex_groups e regex hsrc hc
    exact ⟨hg, fun params url => populateParams_isSome regex _ (by omega) params url⟩
  · intro c hc
    rw [he] at hc
    rcases List.mem_append.mp hc with h1 | h1
    · intro hcp
      have := patternOf_plain ps hps c h1
      rw [hcp] at this
      revert this
      decide
    · intro hcp
      rw [hcp] at h1
      revert h1
      decide
  · rw [he]
    exact extractParamKeys_pieces ps hps

theorem populateParams_in_range_witness :
    (∀ c ∈ (paramsRouter.next.get ⟨0, by decide⟩).pattern.String, c ≠ '(') ∧
    nodeRegex (paramsRouter.next.get ⟨0, by decide⟩)
      = some (piecesRegexp [.lit "api".toList, .param "id".toList "5".toList]) ∧
    (piecesRegexp [.lit "api".toList, .param "id".toList "5".toList]).numSubexp
      = (extractParamKeys paramRegexp
          (paramsRouter.next.get ⟨0, by decide⟩).pattern.String).length ∧
    (populateParams [] (extractParamKeys paramRegexp
        (paramsRouter.next.get ⟨0, by decide⟩).pattern.String) "/x/api/5/api/6".toList
      (piecesRegexp [.lit "api".toList, .param "id".toList "5".toList])).isSome = true :=
  ⟨by decide, by decide,
    ((populateParams_in_range (paramsRouter.next.get ⟨0, by decide⟩)).1
      (piecesRegexp [.lit "api".toList, .param "id".toList "5".toList])
      (by decide) (by decide)).1,
    ((populateParams_in_range (paramsRouter.next.get ⟨0, by decide⟩)).1
      (piecesRegexp [.lit "api".toList, .param "id".toList "5".toList])
      (by decide) (by decide)).2 [] "/x/api/5/api/6".toList⟩

/-- C5 as stated fails: `/api/:id` is registered with `Get` and the path
`/api/5` fits it, yet the GET request for `/api/5` is answered 405 and the
handler is not called, because the entry registered before it for POST with
`/api/:x` matches the same path. -/
theorem Handle_params_counterexample :
    (∃ e ∈ shadowedRouter.next, registeredAs e "GET" "/api/:id".toList HandleFunc) ∧
    pathOf [.lit "api".toList, .param "id".toList "5".toList] = "/api/5".toList ∧
    shadowedRouter.Handle (plainRequest "GET" "/api/5".toList) emptyResponse
      = some (emptyResponse.WriteText StatusMethodNotAllowed "") ∧
    ∀ req : Request Unit,
      shadowedRouter.Handle (plainRequest "GET" "/api/5".toList) emptyResponse
        ≠ HandleFunc req emptyResponse := by
  have hrun : shadowedRouter.Handle (plainRequest "GET" "/api/5".toList) emptyResponse
      = some (emptyResponse.WriteText StatusMethodNotAllowed "") := by decide
  refine ⟨⟨shadowedRouter.next.get ⟨1, by decide⟩, List.get_mem _ _ _, rfl, rfl, rfl⟩,
    rfl, hrun, ?_⟩
  intro req hc
  rw [hrun] at hc
  have h1 : (some (405 : Int)) = some 0 :=
    congrArg (fun o : Option Response => o.map Response.StatusCode) hc
  exact absurd h1 (by decide)

end Blaze
